import Mathlib

/-!
Verification of the PathFinder repository (square-grid and hex-grid
pathfinding with terrain costs, race modifiers, and a multi-source
rendezvous finder).

The Python sources are shallowly embedded:

* Python floats are modelled by `Cost` (an exact rational together with an
  `inf` element mirroring `float('inf')`); all costs appearing in the
  repository are small dyadic rationals, on which Python float arithmetic
  is exact.
* Python dicts are modelled by association lists with dict semantics:
  assignment replaces the first binding in place or appends a fresh one,
  so iteration order is insertion order, as in CPython.
* `heapq` priority queues are modelled as lists from which `popMin`
  extracts the least element in the lexicographic tuple order Python uses.
* Loops (`while` over a queue) are modelled with explicit fuel; a result
  `none` of the fuelled function means the computation did not complete
  within the given fuel, so every actual return of the Python function is
  covered by the `some`-conditioned theorems.
* Python exceptions are modelled by `Except PyErr`.
-/

set_option allowUnsafeReducibility true

attribute [local semireducible] Rat.add Rat.mul Rat.div Rat.neg Rat.inv

/-- Errors raised by the embedded Python code. -/
inductive PyErr where
  | attributeError
  | keyError
  | valueError
deriving DecidableEq

/-- Python float values used by the repository: an exact rational, or
`float('inf')`.  (NaN never arises in the modelled code paths: the sources
only add, divide by nonzero speeds, and compare.) -/
inductive Cost where
  | fin (q : ℚ)
  | inf
deriving DecidableEq

namespace Cost

/-- Addition of Python floats: `inf + x = x + inf = inf`. -/
def add : Cost → Cost → Cost
  | fin a, fin b => fin (a + b)
  | _, _ => inf

instance : Add Cost := ⟨add⟩

/-- Strict order of Python floats (`inf < inf` is false). -/
def Lt : Cost → Cost → Prop
  | fin a, fin b => a < b
  | fin _, inf => True
  | inf, _ => False

/-- Non-strict order of Python floats. -/
def Le : Cost → Cost → Prop
  | fin a, fin b => a ≤ b
  | _, inf => True
  | inf, fin _ => False

instance : LT Cost := ⟨Lt⟩

instance : LE Cost := ⟨Le⟩

@[simp]
theorem fin_lt_fin {a b : ℚ} : (fin a < fin b) = (a < b) := rfl

@[simp]
theorem fin_lt_inf {a : ℚ} : (fin a < inf) = True := rfl

@[simp]
theorem inf_lt {a : Cost} : (inf < a) = False := by cases a <;> rfl

@[simp]
theorem fin_le_fin {a b : ℚ} : (fin a ≤ fin b) = (a ≤ b) := rfl

@[simp]
theorem le_inf {a : Cost} : (a ≤ inf) = True := by cases a <;> rfl

@[simp]
theorem inf_le_fin {a : ℚ} : (inf ≤ fin a) = False := rfl

@[simp]
theorem fin_add_fin {a b : ℚ} : fin a + fin b = fin (a + b) := rfl

@[simp]
theorem add_inf {a : Cost} : a + inf = inf := by cases a <;> rfl

@[simp]
theorem inf_add {a : Cost} : inf + a = inf := rfl

instance decidableLt : ∀ a b : Cost, Decidable (a < b)
  | fin a, fin b => inferInstanceAs (Decidable (a < b))
  | fin _, inf => isTrue trivial
  | inf, fin _ => isFalse id
  | inf, inf => isFalse id

instance decidableLe : ∀ a b : Cost, Decidable (a ≤ b)
  | fin a, fin b => inferInstanceAs (Decidable (a ≤ b))
  | fin _, inf => isTrue trivial
  | inf, inf => isTrue trivial
  | inf, fin _ => isFalse id

/-- Division of a Python float by a (finite) float, as used for
`terrain_cost / speed`; `inf / s = inf`.  (Python raises on `s = 0`; the
modelled claims never divide by zero, and rational division by zero is
total in Lean.) -/
def div : Cost → ℚ → Cost
  | fin a, s => fin (a / s)
  | inf, _ => inf

theorem cle_refl (a : Cost) : a ≤ a := by
  cases a <;> simp

theorem cle_trans {a b c : Cost} (h₁ : a ≤ b) (h₂ : b ≤ c) : a ≤ c := by
  cases a <;> cases b <;> cases c <;> simp_all <;> linarith

theorem clt_iff_not_ge {a b : Cost} : a < b ↔ ¬ b ≤ a := by
  cases a <;> cases b <;> simp

theorem cle_of_lt {a b : Cost} (h : a < b) : a ≤ b := by
  cases a <;> cases b <;> simp_all <;> linarith

theorem clt_of_le_of_lt {a b c : Cost} (h₁ : a ≤ b) (h₂ : b < c) : a < c := by
  cases a <;> cases b <;> cases c <;> simp_all <;> linarith

theorem cle_of_lt_of_le {a b c : Cost} (h₁ : a < b) (h₂ : b ≤ c) : a ≤ c := by
  cases a <;> cases b <;> cases c <;> simp_all <;> linarith

theorem cle_total (a b : Cost) : a ≤ b ∨ b ≤ a := by
  cases a <;> cases b <;> simp
  exact le_total _ _

theorem cle_antisymm {a b : Cost} (h₁ : a ≤ b) (h₂ : b ≤ a) : a = b := by
  cases a <;> cases b <;> simp_all
  linarith

theorem cadd_le_cadd_right {a b : Cost} (c : Cost) (h : a ≤ b) : a + c ≤ b + c := by
  cases a <;> cases b <;> cases c <;> simp_all

theorem cadd_le_cadd_left {a b : Cost} (c : Cost) (h : a ≤ b) : c + a ≤ c + b := by
  cases a <;> cases b <;> cases c <;> simp_all

theorem czero_add (a : Cost) : fin 0 + a = a := by
  cases a <;> simp

theorem cadd_zero (a : Cost) : a + fin 0 = a := by
  cases a <;> simp

theorem cadd_assoc (a b c : Cost) : a + b + c = a + (b + c) := by
  cases a <;> cases b <;> cases c <;> simp <;> ring

theorem cle_add_of_nonneg_right {a b : Cost} (h : fin 0 ≤ b) : a ≤ a + b := by
  cases a <;> cases b <;> simp_all

theorem cadd_nonneg {a b : Cost} (ha : fin 0 ≤ a) (hb : fin 0 ≤ b) :
    fin 0 ≤ a + b := by
  cases a <;> cases b <;> simp_all
  linarith

end Cost

/-! ## Association lists with Python dict semantics -/

/-- `d[k]`, i.e. `dict.get(k)`: the first binding of `k` (bindings are kept
unique by `aset`). -/
def aget {κ ν : Type} [DecidableEq κ] : List (κ × ν) → κ → Option ν
  | [], _ => none
  | e :: t, k => if e.1 = k then some e.2 else aget t k

/-- `d[k] = v`: replace the first binding of `k` in place, or append a fresh
binding — CPython dicts keep insertion order exactly like this. -/
def aset {κ ν : Type} [DecidableEq κ] : List (κ × ν) → κ → ν → List (κ × ν)
  | [], k, v => [(k, v)]
  | e :: t, k, v => if e.1 = k then (k, v) :: t else e :: aset t k v

theorem aget_aset_self {κ ν : Type} [DecidableEq κ] (l : List (κ × ν)) (k : κ) (v : ν) :
    aget (aset l k v) k = some v := by
  induction l with
  | nil => simp [aget, aset]
  | cons e t ih =>
      by_cases h : e.1 = k <;> simp [aget, aset, h, ih]

theorem aget_aset_ne {κ ν : Type} [DecidableEq κ] (l : List (κ × ν)) {k k' : κ} (v : ν)
    (h : k ≠ k') : aget (aset l k v) k' = aget l k' := by
  induction l with
  | nil => simp [aget, aset, h]
  | cons e t ih =>
      by_cases he : e.1 = k
      · simp [aget, aset, he, h]
      · simp only [aset, if_neg he, aget]
        by_cases he' : e.1 = k' <;> simp [he', ih]

theorem aget_mem_keys {κ ν : Type} [DecidableEq κ] {l : List (κ × ν)} {k : κ} {v : ν}
    (h : aget l k = some v) : (k, v) ∈ l := by
  induction l with
  | nil => simp [aget] at h
  | cons e t ih =>
      by_cases he : e.1 = k
      · simp only [aget, if_pos he, Option.some.injEq] at h
        subst h
        subst he
        simp
      · simp only [aget, if_neg he] at h
        exact List.mem_cons_of_mem _ (ih h)

theorem aget_eq_none_aset {κ ν : Type} [DecidableEq κ] {l : List (κ × ν)} {k k' : κ}
    {v : ν} (h : aget (aset l k v) k' = none) : aget l k' = none := by
  by_cases hk : k = k'
  · subst hk
    rw [aget_aset_self] at h
    exact absurd h (by simp)
  · rwa [aget_aset_ne _ _ hk] at h

/-! ## Priority queue: `heapq` on tuples -/

/-- First minimal element of a list with respect to a strict order given as a
`Bool` test: later elements replace the current minimum only when strictly
smaller. -/
def listMin {α : Type} (lt : α → α → Bool) : List α → Option α
  | [] => none
  | a :: t => some (t.foldl (fun m x => if lt x m then x else m) a)

/-- Remove the first occurrence of an element. -/
def removeFirst {α : Type} [DecidableEq α] : List α → α → List α
  | [], _ => []
  | a :: t, x => if a = x then t else a :: removeFirst t x

/-- `heapq.heappop`: extract the least element (lexicographic tuple order;
for the entry tuples of this repository distinct entries always differ in
the compared components, so list-minimum extraction is observationally the
heap pop). -/
def popMin {α : Type} [DecidableEq α] (lt : α → α → Bool) (l : List α) :
    Option (α × List α) :=
  match listMin lt l with
  | none => none
  | some m => some (m, removeFirst l m)

theorem foldlMin_mem {α : Type} (lt : α → α → Bool) (a : α) (t : List α) :
    t.foldl (fun m x => if lt x m then x else m) a ∈ a :: t := by
  induction t generalizing a with
  | nil => simp
  | cons b t ih =>
      simp only [List.foldl_cons]
      by_cases hb : lt b a
      · simp only [if_pos hb]
        rcases List.mem_cons.mp (ih b) with h | h
        · rw [h]
          exact List.mem_cons_of_mem _ (List.mem_cons_self _ _)
        · exact List.mem_cons_of_mem _ (List.mem_cons_of_mem _ h)
      · simp only [if_neg hb]
        rcases List.mem_cons.mp (ih a) with h | h
        · rw [h]
          exact List.mem_cons_self _ _
        · exact List.mem_cons_of_mem _ (List.mem_cons_of_mem _ h)

theorem foldlMin_not_lt {α : Type} {lt : α → α → Bool}
    (hirr : ∀ x, lt x x = false)
    (htr : ∀ x y z, lt x y = true → lt y z = true → lt x z = true)
    (hwk : ∀ x y z, lt y x = false → lt y z = true → lt x z = true)
    (a : α) (t : List α) :
    ∀ x ∈ a :: t, lt x (t.foldl (fun m x => if lt x m then x else m) a) = false := by
  induction t generalizing a with
  | nil =>
      intro x hx
      simp only [List.mem_singleton] at hx
      subst hx
      exact hirr x
  | cons b t ih =>
      intro x hx
      simp only [List.foldl_cons]
      by_cases hb : lt b a
      · simp only [if_pos hb]
        rcases List.mem_cons.mp hx with hxa | hx
        · -- x = a: if a were below the minimum, so would b be, contradiction
          subst hxa
          by_contra hcon
          have h1 := htr b x _ hb (Bool.ne_false_iff.mp hcon)
          have h2 := ih b b (List.mem_cons_self _ _)
          rw [h1] at h2
          cases h2
        · exact ih b x hx
      · simp only [if_neg hb]
        rcases List.mem_cons.mp hx with hxa | hx
        · subst hxa
          exact ih x x (List.mem_cons_self _ _)
        · rcases List.mem_cons.mp hx with hxb | hx
          · -- x = b, with lt b a = false
            subst hxb
            by_contra hcon
            have h1 := hwk a x _ (by simpa using hb) (Bool.ne_false_iff.mp hcon)
            have h2 := ih a a (List.mem_cons_self _ _)
            rw [h1] at h2
            cases h2
          · exact ih a x (List.mem_cons_of_mem _ hx)

theorem popMin_mem {α : Type} [DecidableEq α] {lt : α → α → Bool} {l : List α}
    {m : α} {rest : List α} (h : popMin lt l = some (m, rest)) : m ∈ l := by
  match l with
  | [] => simp [popMin, listMin] at h
  | a :: t =>
      simp only [popMin, listMin, Option.some.injEq, Prod.mk.injEq] at h
      exact h.1 ▸ foldlMin_mem lt a t

theorem popMin_rest {α : Type} [DecidableEq α] {lt : α → α → Bool} {l : List α}
    {m : α} {rest : List α} (h : popMin lt l = some (m, rest)) :
    rest = removeFirst l m := by
  match l with
  | [] => simp [popMin, listMin] at h
  | a :: t =>
      simp only [popMin, listMin, Option.some.injEq, Prod.mk.injEq] at h
      rw [← h.2, h.1]

theorem popMin_not_lt {α : Type} [DecidableEq α] {lt : α → α → Bool} {l : List α}
    {m : α} {rest : List α}
    (hirr : ∀ x, lt x x = false)
    (htr : ∀ x y z, lt x y = true → lt y z = true → lt x z = true)
    (hwk : ∀ x y z, lt y x = false → lt y z = true → lt x z = true)
    (h : popMin lt l = some (m, rest)) : ∀ x ∈ l, lt x m = false := by
  match l with
  | [] => simp [popMin, listMin] at h
  | a :: t =>
      simp only [popMin, listMin, Option.some.injEq, Prod.mk.injEq] at h
      exact h.1 ▸ foldlMin_not_lt hirr htr hwk a t

theorem popMin_none {α : Type} [DecidableEq α] {lt : α → α → Bool} {l : List α}
    (h : popMin lt l = none) : l = [] := by
  match l with
  | [] => rfl
  | a :: t => simp [popMin, listMin] at h

theorem removeFirst_subset {α : Type} [DecidableEq α] {l : List α} {m x : α}
    (h : x ∈ removeFirst l m) : x ∈ l := by
  induction l with
  | nil => simp [removeFirst] at h
  | cons a t ih =>
      simp only [removeFirst] at h
      by_cases ha : a = m
      · rw [if_pos ha] at h
        exact List.mem_cons_of_mem _ h
      · rw [if_neg ha] at h
        rcases List.mem_cons.mp h with rfl | h
        · exact List.mem_cons_self _ _
        · exact List.mem_cons_of_mem _ (ih h)

theorem removeFirst_mem_of_ne {α : Type} [DecidableEq α] {l : List α} {m x : α}
    (hx : x ∈ l) (hne : x ≠ m) : x ∈ removeFirst l m := by
  induction l with
  | nil => simp at hx
  | cons a t ih =>
      simp only [removeFirst]
      by_cases ha : a = m
      · rw [if_pos ha]
        rcases List.mem_cons.mp hx with rfl | hx
        · exact absurd ha hne
        · exact hx
      · rw [if_neg ha]
        rcases List.mem_cons.mp hx with rfl | hx
        · exact List.mem_cons_self _ _
        · exact List.mem_cons_of_mem _ (ih hx)

/-! ## Square grids (`maze.py`)

A `Maze` grid cell is a Python value: the int `0` (free), the int `1`
(wall), or a string such as `'1'`–`'9'` (heroes) and `'F'` (finish); in
`TerrainMaze` the strings are terrain tokens.  `is_valid_position` tests
bounds and `cell != 1` (the int; a *string* `'1'` is not equal to the int
`1` in Python). -/

/-- A Python grid cell value: an int or a string. -/
inductive PyCell where
  | int (n : ℤ)
  | str (s : String)
deriving DecidableEq

abbrev Pos := ℤ × ℤ

abbrev Grid := List (List PyCell)

/-- `self.height = len(self.grid)` -/
def gridHeight (g : Grid) : ℕ := g.length

/-- `self.width = len(self.grid[0]) if self.height > 0 else 0` -/
def gridWidth (g : Grid) : ℕ :=
  match g with
  | [] => 0
  | r :: _ => r.length

/-- `self.grid[row][col]` (`none` when an index is out of range; for the
rectangular grids the sources construct this is exactly Python's access). -/
def cellAt (g : Grid) (p : Pos) : Option PyCell :=
  if p.1 < 0 ∨ p.2 < 0 then none
  else (g.get? p.1.toNat).bind fun row => row.get? p.2.toNat

/-- `Maze.is_valid_position`: inside the rectangle and not the int wall `1`. -/
def isValidPosition (g : Grid) (p : Pos) : Bool :=
  decide (0 ≤ p.1) && decide (p.1 < gridHeight g) &&
  decide (0 ≤ p.2) && decide (p.2 < gridWidth g) &&
  (match cellAt g p with
   | some c => decide (c ≠ PyCell.int 1)
   | none => false)

/-- Scan order of the constructor loops: row major. -/
def gridPositions (g : Grid) : List Pos :=
  (List.range (gridHeight g)).flatMap fun i =>
    (List.range (gridWidth g)).map fun j => ((i : ℤ), (j : ℤ))

/-- Python `str.isdigit` on the cell strings used here. -/
def pyIsDigit (s : String) : Bool := !s.isEmpty && s.toList.all Char.isDigit

/-- The `heroes` dict built by `Maze.__init__`: `{cell: (i, j)}` for every
digit-string cell, later bindings overwriting earlier ones. -/
def heroesOf (g : Grid) : List (String × Pos) :=
  (gridPositions g).foldl
    (fun d p =>
      match cellAt g p with
      | some (PyCell.str s) => if pyIsDigit s then aset d s p else d
      | _ => d) []

/-- `self.end`: the last `'F'` cell in scan order (assignment overwrites). -/
def endOf (g : Grid) : Option Pos :=
  (gridPositions g).foldl
    (fun e p =>
      match cellAt g p with
      | some (PyCell.str s) => if ¬ pyIsDigit s ∧ s = "F" then some p else e
      | _ => e) none

/-- `Maze.get_start_position` = `self.heroes.get('1')`. -/
def getStartPosition (g : Grid) : Option Pos := aget (heroesOf g) "1"

/-- `Maze.get_end_position`. -/
def getEndPosition (g : Grid) : Option Pos := endOf g

/-- `Maze.get_neighbors`: the four offsets in source order, filtered by
`is_valid_position`. -/
def baseNeighbors (g : Grid) (p : Pos) : List Pos :=
  [(p.1 - 1, p.2), (p.1 + 1, p.2), (p.1, p.2 - 1), (p.1, p.2 + 1)].filter
    (fun q => isValidPosition g q)

/-- `Maze.get_all_valid_positions`. -/
def getAllValidPositions (g : Grid) : List Pos :=
  (gridPositions g).filter (fun p => isValidPosition g p)

/-! ## Terrain model (`terrain_maze.py`) -/

/-- One value of the `TERRAIN_TYPES` dict. -/
structure TerrainInfo where
  name : String
  cost : Cost
  passable : Bool
  color : String
deriving DecidableEq

/-- The `TERRAIN_TYPES` dict literal of `TerrainMaze`, entry for entry in
source order.  Note the key `'F'` appears twice: first bound to Forest
(cost 3.0) and later to Finish (cost 1.0). -/
def TERRAIN_TYPES : List (String × TerrainInfo) :=
  [ ("R", ⟨"Road", Cost.fin (1/2), true, "gray"⟩),
    ("G", ⟨"Grass", Cost.fin 1, true, "lightgreen"⟩),
    ("F", ⟨"Forest", Cost.fin 3, true, "darkgreen"⟩),
    ("H", ⟨"Hill", Cost.fin 4, true, "brown"⟩),
    ("S", ⟨"Swamp", Cost.fin 5, true, "olive"⟩),
    ("W", ⟨"Water", Cost.inf, false, "blue"⟩),
    ("M", ⟨"Mountain", Cost.inf, false, "black"⟩),
    (" ", ⟨"Empty", Cost.inf, false, "white"⟩),
    ("#", ⟨"Wall", Cost.inf, false, "black"⟩),
    ("1", ⟨"Start", Cost.fin 1, true, "lightgreen"⟩),
    ("F", ⟨"Finish", Cost.fin 1, true, "lightgreen"⟩),
    ("2", ⟨"Hero2", Cost.fin 1, true, "lightgreen"⟩),
    ("3", ⟨"Hero3", Cost.fin 1, true, "lightgreen"⟩),
    ("4", ⟨"Hero4", Cost.fin 1, true, "lightgreen"⟩),
    ("5", ⟨"Hero5", Cost.fin 1, true, "lightgreen"⟩),
    ("6", ⟨"Hero6", Cost.fin 1, true, "lightgreen"⟩),
    ("7", ⟨"Hero7", Cost.fin 1, true, "lightgreen"⟩),
    ("8", ⟨"Hero8", Cost.fin 1, true, "lightgreen"⟩),
    ("9", ⟨"Hero9", Cost.fin 1, true, "lightgreen"⟩) ]

/-- The dict a Python dict literal builds: the entries inserted in source
order, a duplicate key overwriting the earlier binding. -/
def terrainTypesDict : List (String × TerrainInfo) :=
  TERRAIN_TYPES.foldl (fun d e => aset d e.1 e.2) []

/-- `TerrainMaze.get_terrain_type`: the raw cell, or `' '` when the position
is invalid. -/
def getTerrainType (g : Grid) (p : Pos) : PyCell :=
  if isValidPosition g p then (cellAt g p).getD (PyCell.str " ") else PyCell.str " "

/-- The fallback of `TERRAIN_TYPES.get(t, {...})` in `get_terrain_info`. -/
def unknownTerrain : TerrainInfo := ⟨"Unknown", Cost.inf, false, "white"⟩

/-- Dict lookup `TERRAIN_TYPES.get(cell)`: only string cells can hit the
string-keyed dict. -/
def terrainLookup (c : PyCell) : Option TerrainInfo :=
  match c with
  | PyCell.str s => aget terrainTypesDict s
  | PyCell.int _ => none

/-- `TerrainMaze.get_terrain_info`. -/
def getTerrainInfo (g : Grid) (p : Pos) : TerrainInfo :=
  (terrainLookup (getTerrainType g p)).getD unknownTerrain

/-- `TerrainMaze.get_terrain_cost`. -/
def getTerrainCost (g : Grid) (p : Pos) : Cost :=
  (getTerrainInfo g p).cost

/-- `TerrainMaze.is_passable`. -/
def isPassableT (g : Grid) (p : Pos) : Bool :=
  isValidPosition g p && (getTerrainInfo g p).passable

/-- `TerrainMaze.get_neighbors`: the four offsets filtered by passability. -/
def terrainNeighbors (g : Grid) (p : Pos) : List Pos :=
  [(p.1 - 1, p.2), (p.1 + 1, p.2), (p.1, p.2 - 1), (p.1, p.2 + 1)].filter
    (fun q => isPassableT g q)

/-- `TerrainPathFinder.get_path_cost`: the sum of the terrain costs of every
cell of the path except the first (`0` for paths shorter than two cells,
exactly as the guard in the source returns). -/
def getPathCost (g : Grid) (path : List Pos) : Cost :=
  (path.drop 1).foldl (fun acc p => acc + getTerrainCost g p) (Cost.fin 0)

/-! ## BFS (`pathfinder.py`) -/

/-- The `came_from`/`visited` dict: position to predecessor (`none` marks
the start, whose recorded predecessor is Python's `None`). -/
abbrev Visited := List (Pos × Option Pos)

/-- The reconstruction loop `while current: path.append(current); current =
came_from[current]`, producing the path end-first.  `none` models a missing
key (`KeyError`) or a chain longer than the fuel (nontermination). -/
def reconstructPath (visited : Visited) : ℕ → Pos → Option (List Pos)
  | 0, _ => none
  | fuelR + 1, cur =>
      match aget visited cur with
      | none => none
      | some none => some [cur]
      | some (some prev) => (reconstructPath visited fuelR prev).map (cur :: ·)

/-- One `while` iteration body of `PathFinder.bfs`, iterated on fuel. -/
def bfsLoop (g : Grid) (e : Pos) : ℕ → List Pos → Visited → Option (Option (List Pos))
  | 0, _, _ => none
  | fuel + 1, queue, visited =>
      match queue with
      | [] => some none
      | cur :: rest =>
          if cur = e then
            match reconstructPath visited (visited.length + 1) cur with
            | none => none
            | some path => some (some path.reverse)
          else
            let st := (baseNeighbors g cur).foldl
              (fun (acc : List Pos × Visited) nb =>
                if (aget acc.2 nb).isSome then acc
                else (acc.1 ++ [nb], aset acc.2 nb (some cur)))
              (rest, visited)
            bfsLoop g e fuel st.1 st.2

/-- `PathFinder.bfs` on a base `Maze`: outer `none` means the fuel ran out,
`some none` is Python's `None`, `some (some p)` a found path. -/
def bfs (g : Grid) (fuel : ℕ) : Option (Option (List Pos)) :=
  match getStartPosition g, getEndPosition g with
  | some s, some e => bfsLoop g e fuel [s] [(s, none)]
  | _, _ => some none

/-! ## Dijkstra (`terrain_pathfinder.py`) -/

abbrev PQEntry := Cost × Pos

/-- The lexicographic order Python uses on heap entries `(cost, (row, col))`. -/
def pentryLt (a b : PQEntry) : Bool :=
  decide (a.1 < b.1) ||
  (decide (a.1 = b.1) &&
    (decide (a.2.1 < b.2.1) ||
      (decide (a.2.1 = b.2.1) && decide (a.2.2 < b.2.2))))

abbrev CostMap := List (Pos × Cost)

/-- The relaxation body of the `for next_pos in get_neighbors` loop. -/
def relaxStep (g : Grid) (c : Cost) (p : Pos)
    (st : List PQEntry × CostMap × Visited) (v : Pos) :
    List PQEntry × CostMap × Visited :=
  let newCost := c + getTerrainCost g v
  let improve : Bool :=
    match aget st.2.1 v with
    | none => true
    | some old => decide (newCost < old)
  if improve then
    (st.1 ++ [(newCost, v)], aset st.2.1 v newCost, aset st.2.2 v (some p))
  else st

/-- The code after the `while` loop of `dijkstra`: `None` when `end` was
never recorded in `came_from`, otherwise the reversed reconstruction. -/
def dijkstraPost (cf : Visited) (e : Pos) : Option (Option (List Pos)) :=
  match aget cf e with
  | none => some none
  | some _ =>
      match reconstructPath cf (cf.length + 1) e with
      | none => none
      | some path => some (some path.reverse)

/-- The `while priority_queue` loop of `TerrainPathFinder.dijkstra`. -/
def dijkstraLoop (g : Grid) (e : Pos) :
    ℕ → List PQEntry → CostMap → Visited → Option (Option (List Pos))
  | 0, _, _, _ => none
  | fuel + 1, pq, csf, cf =>
      match popMin pentryLt pq with
      | none => dijkstraPost cf e
      | some ((c, p), rest) =>
          if p = e then dijkstraPost cf e
          else
            match aget csf p with
            | none => none
            | some cp =>
                if cp < c then dijkstraLoop g e fuel rest csf cf
                else
                  let st := (terrainNeighbors g p).foldl (relaxStep g c p)
                    (rest, csf, cf)
                  dijkstraLoop g e fuel st.1 st.2.1 st.2.2

/-- `TerrainPathFinder.dijkstra` (the `if not start or not end` guard is the
`None` test: positions are nonempty tuples, hence truthy). -/
def dijkstra (g : Grid) (fuel : ℕ) : Option (Option (List Pos)) :=
  match getStartPosition g, getEndPosition g with
  | some s, some e =>
      dijkstraLoop g e fuel [(Cost.fin 0, s)] [(s, Cost.fin 0)] [(s, none)]
  | _, _ => some none

/-! ## Path predicates -/

/-- A passable path of `TerrainMaze`: nonempty, consecutive cells produced
by `get_neighbors` (which only yields passable cells). -/
def ValidTPath (g : Grid) (q : List Pos) : Prop :=
  q ≠ [] ∧ q.Chain' (fun a b => b ∈ terrainNeighbors g a)

/-- A passable path of the base `Maze`. -/
def ValidBPath (g : Grid) (q : List Pos) : Prop :=
  q ≠ [] ∧ q.Chain' (fun a b => b ∈ baseNeighbors g a)

/-- Recursive sum of entering costs, used to reason about `getPathCost`. -/
def wsum (g : Grid) : List Pos → Cost
  | [] => Cost.fin 0
  | p :: t => getTerrainCost g p + wsum g t

theorem foldl_cadd_eq_wsum (g : Grid) (l : List Pos) (a : Cost) :
    l.foldl (fun acc p => acc + getTerrainCost g p) a = a + wsum g l := by
  induction l generalizing a with
  | nil => simp [wsum, Cost.cadd_zero]
  | cons p t ih =>
      simp only [List.foldl_cons, wsum, ih]
      rw [Cost.cadd_assoc]

theorem getPathCost_eq_wsum (g : Grid) (path : List Pos) :
    getPathCost g path = wsum g (path.drop 1) := by
  rw [getPathCost, foldl_cadd_eq_wsum, Cost.czero_add]

/-! ## Equidistant finder (`equidistant_finder.py`) -/

/-- `EquidistantFinder.calculate_distances`: BFS recording hop distances. -/
def calcDistLoop (g : Grid) : ℕ → List (Pos × ℕ) → List (Pos × ℕ) → Option (List (Pos × ℕ))
  | 0, _, _ => none
  | _ + 1, [], dist => some dist
  | fuel + 1, (pos, d) :: rest, dist =>
      let st := (baseNeighbors g pos).foldl
        (fun (acc : List (Pos × ℕ) × List (Pos × ℕ)) nb =>
          if (aget acc.2 nb).isSome then acc
          else (acc.1 ++ [(nb, d + 1)], aset acc.2 nb (d + 1)))
        (rest, dist)
      calcDistLoop g fuel st.1 st.2

/-- `calculate_distances(start_pos)`; `{}` when the start is `None`. -/
def calculateDistances (g : Grid) (start : Option Pos) (fuel : ℕ) :
    Option (List (Pos × ℕ)) :=
  match start with
  | none => some []
  | some s => calcDistLoop g fuel [(s, 0)] [(s, 0)]

/-- Python `max`/`min` over a nonempty int list, first maximal value kept. -/
def foldNatMax (d0 : ℕ) (rest : List ℕ) : ℕ := rest.foldl (fun m x => if m < x then x else m) d0

def foldNatMin (d0 : ℕ) (rest : List ℕ) : ℕ := rest.foldl (fun m x => if x < m then x else m) d0

/-- The inner `for hero_id in heroes` collection loop of
`find_equidistant_point`: the distance of `pos` from every hero, `none` as
soon as one hero cannot reach it. -/
def collectHeroDists (hd : List (String × List (Pos × ℕ))) (heroes : List (String × Pos))
    (pos : Pos) : Option (List ℕ) :=
  heroes.mapM fun h => (aget hd h.1).bind fun dm => aget dm pos

/-- `EquidistantFinder.find_equidistant_point`.  Outer `none` is exhausted
fuel; the result mirrors the source: `None`, or `(best_point,
min_max_distance)`. -/
def findEquidistantPoint (g : Grid) (fuel : ℕ) : Option (Option (Pos × Cost)) :=
  let heroes := heroesOf g
  if heroes.length < 2 then some none
  else
    match heroes.mapM (fun h => (calculateDistances g (some h.2) fuel).map ((h.1, ·))) with
    | none => none
    | some hd =>
        let sel := (getAllValidPositions g).foldl
          (fun (acc : Option Pos × Cost) pos =>
            if heroes.any (fun h => h.2 = pos) then acc
            else
              match collectHeroDists hd heroes pos with
              | none => acc
              | some [] => acc
              | some (d0 :: rest) =>
                  let mind := foldNatMin d0 rest
                  let maxd := foldNatMax d0 rest
                  if mind = maxd ∧ Cost.fin maxd < acc.2 then (some pos, Cost.fin maxd)
                  else if Cost.fin maxd < acc.2 then (some pos, Cost.fin maxd)
                  else acc)
          (none, Cost.inf)
        match sel.1 with
        | some p => some (some (p, sel.2))
        | none => some none

/-! ## Terrain rendezvous finder (`terrain_equidistant_finder.py`) -/

/-- `distances`: outer dict position → inner dict source index → time. -/
abbrev TimesMap := List (Pos × List (ℕ × Cost))

/-- `distances[current_pos][idx] = current_time` on a `defaultdict(dict)`. -/
def recordDist (d : TimesMap) (pos : Pos) (idx : ℕ) (t : Cost) : TimesMap :=
  aset d pos (aset ((aget d pos).getD []) idx t)

/-- The relaxation body of the `for next_pos in get_neighbors` loop of
`compute_distances_with_costs`; edge weight `get_terrain_cost(next) /
speed`. -/
def srcRelax (g : Grid) (speed : ℚ) (t : Cost)
    (acc : List PQEntry × CostMap) (nb : Pos) : List PQEntry × CostMap :=
  let nt := t + Cost.div (getTerrainCost g nb) speed
  let improve : Bool :=
    match aget acc.2 nb with
    | none => true
    | some old => decide (nt < old)
  if improve then (acc.1 ++ [(nt, nb)], aset acc.2 nb nt) else acc

/-- The per-source Dijkstra loop of `compute_distances_with_costs`. -/
def srcLoop (g : Grid) (idx : ℕ) (speed : ℚ) :
    ℕ → List PQEntry → CostMap → TimesMap → Option TimesMap
  | 0, _, _, _ => none
  | fuel + 1, pq, tsf, dist =>
      match popMin pentryLt pq with
      | none => some dist
      | some ((t, pos), rest) =>
          match aget tsf pos with
          | none => none
          | some tp =>
              if tp < t then srcLoop g idx speed fuel rest tsf dist
              else
                let dist1 := recordDist dist pos idx t
                let st := (terrainNeighbors g pos).foldl (srcRelax g speed t)
                  (rest, tsf)
                srcLoop g idx speed fuel st.1 st.2 dist1

/-- `TerrainEquidistantFinder.compute_distances_with_costs`: `{}` for no
sources, `ValueError` on a length mismatch, otherwise one relaxation per
valid source in order. -/
def computeDistancesWithCosts (g : Grid) (sources : List Pos)
    (speeds : Option (List ℚ)) (fuel : ℕ) : Option (Except PyErr TimesMap) :=
  if sources.isEmpty then some (Except.ok [])
  else
    let sp := speeds.getD (List.replicate sources.length 1)
    if sources.length ≠ sp.length then some (Except.error PyErr.valueError)
    else
      ((sources.zip sp).enum.foldlM
        (fun dist (e : ℕ × (Pos × ℚ)) =>
          if isValidPosition g e.2.1 then
            srcLoop g e.1 e.2.2 fuel [(Cost.fin 0, e.2.1)] [(e.2.1, Cost.fin 0)] dist
          else some dist)
        []).map Except.ok

/-- `max(times.values())`, first maximal kept. -/
def maxTimes (t0 : Cost) (rest : List Cost) : Cost :=
  rest.foldl (fun m x => if m < x then x else m) t0

/-- `max(times.values())` of a nonempty inner dict, as the selection loop
computes it. -/
def innerMax (times : List (ℕ × Cost)) : Cost :=
  match times with
  | [] => Cost.inf
  | t0 :: rest => maxTimes t0.2 (rest.map (·.2))

/-- One iteration of the selection loop of `find_optimal_gathering_point`:
skip an entry not covered by every source (`len(times) !=
len(hero_positions)`), otherwise keep it when its maximal arrival time
strictly improves. -/
def selStep (n : ℕ) (acc : Cost × Option Pos) (e : Pos × List (ℕ × Cost)) :
    Cost × Option Pos :=
  if e.2.length ≠ n then acc
  else
    match e.2 with
    | [] => acc
    | t0 :: rest =>
        let maxt := maxTimes t0.2 (rest.map (·.2))
        if maxt < acc.1 then (maxt, some e.1) else acc

/-- The selection loop of `find_optimal_gathering_point` over
`distances.items()`. -/
def selectGathering (dist : TimesMap) (n : ℕ) : Cost × Option Pos :=
  dist.foldl (selStep n) (Cost.inf, none)

/-- `TerrainEquidistantFinder.find_optimal_gathering_point`. -/
def findOptimalGatheringPoint (g : Grid) (heroPositions : List Pos)
    (heroSpeeds : Option (List ℚ)) (fuel : ℕ) : Option (Except PyErr (Option Pos)) :=
  if heroPositions.isEmpty then some (Except.ok none)
  else
    match computeDistancesWithCosts g heroPositions heroSpeeds fuel with
    | none => none
    | some (Except.error e) => some (Except.error e)
    | some (Except.ok dist) =>
        if dist.isEmpty then some (Except.ok none)
        else some (Except.ok (selectGathering dist heroPositions.length).2)

/-! ## Hex world (`hex_terrain_type.py`, `hex_cell.py`, `hex_map.py`,
`races/race.py`, `pathfinding/hex_a_star.py`) -/

/-- The sixteen terrain members of the `HexTerrainType` enum. -/
inductive HexTerrainType where
  | GRASS
  | FOREST
  | HILLS
  | MOUNTAIN
  | WATER
  | SWAMP
  | DESERT
  | SNOW
  | LAVA
  | ROAD
  | CASTLE
  | VILLAGE
  | CAVE
  | WALL
  | START
  | END
deriving DecidableEq

/-- Every attribute the `HexTerrainType` class body defines: the sixteen
enum members, the dict-valued class attributes `DESCRIPTIONS` and `COLORS`
(which the `Enum` metaclass also turns into members), and the two
classmethods.  `EnumMeta.__getattr__` raises `AttributeError` for any other
name — in particular the enum defines **no** `get_cost`, `is_passable`,
`from_symbol` or `get_name`. -/
def hexTerrainTypeAttrs : List String :=
  [ "GRASS", "FOREST", "HILLS", "MOUNTAIN", "WATER", "SWAMP", "DESERT",
    "SNOW", "LAVA", "ROAD", "CASTLE", "VILLAGE", "CAVE", "WALL", "START",
    "END", "DESCRIPTIONS", "COLORS", "get_description", "get_color" ]

/-- Python attribute resolution on the `HexTerrainType` class. -/
def hexTerrainTypeHasAttr (n : String) : Bool := n ∈ hexTerrainTypeAttrs

/-- `HexCell`: cubic coordinates with `s = -q - r` derived; `__eq__` and
`__hash__` use only `(q, r)`, so dictionaries and comparisons key on the
coordinate pair. -/
structure HexCell where
  q : ℤ
  r : ℤ
  terrain : HexTerrainType
deriving DecidableEq

/-- The dict key of a cell (Python hashes/compares cells by `(q, r)`). -/
def cellKey (c : HexCell) : ℤ × ℤ := (c.q, c.r)

/-- `HexCell.distance`: `max(|Δq|, |Δr|, |Δs|)` with `s = -q - r`. -/
def hexDistance (a b : HexCell) : ℤ :=
  max |a.q - b.q| (max |a.r - b.r| |(-a.q - a.r) - (-b.q - b.r)|)

/-- `HexMap.cells`: dict `(q, r) → HexCell`. -/
abbrev HexCells := List ((ℤ × ℤ) × HexCell)

/-- `HexMap.get_neighbors`: the six direction offsets in source order,
filtered to the cells present on the map (existence only — no passability
check here). -/
def hexMapNeighbors (m : HexCells) (c : HexCell) : List HexCell :=
  [((1 : ℤ), (0 : ℤ)), (1, -1), (0, -1), (-1, 0), (-1, 1), (0, 1)].filterMap
    fun d => aget m (c.q + d.1, c.r + d.2)

/-- A race's `terrain_modifiers` dict. -/
abbrev RaceTable := List (HexTerrainType × Cost)

/-- The base `Race.terrain_modifiers = {t: 1.0 for t in HexTerrainType}`.
(The comprehension also maps the pseudo-members `DESCRIPTIONS`/`COLORS` to
1.0; those keys are never looked up, and missing keys default to 1.0 anyway,
so listing the sixteen proper members is extensionally identical.) -/
def baseRaceModifiers : RaceTable :=
  [ (HexTerrainType.GRASS, Cost.fin 1), (HexTerrainType.FOREST, Cost.fin 1),
    (HexTerrainType.HILLS, Cost.fin 1), (HexTerrainType.MOUNTAIN, Cost.fin 1),
    (HexTerrainType.WATER, Cost.fin 1), (HexTerrainType.SWAMP, Cost.fin 1),
    (HexTerrainType.DESERT, Cost.fin 1), (HexTerrainType.SNOW, Cost.fin 1),
    (HexTerrainType.LAVA, Cost.fin 1), (HexTerrainType.ROAD, Cost.fin 1),
    (HexTerrainType.CASTLE, Cost.fin 1), (HexTerrainType.VILLAGE, Cost.fin 1),
    (HexTerrainType.CAVE, Cost.fin 1), (HexTerrainType.WALL, Cost.fin 1),
    (HexTerrainType.START, Cost.fin 1), (HexTerrainType.END, Cost.fin 1) ]

/-- `Race.get_movement_cost`: the modifier for the kind (default `1.0`),
returned unchanged — `inf` stays `inf`, and **no base terrain cost is
multiplied in**. -/
def raceGetMovementCost (tm : RaceTable) (t : HexTerrainType) : Cost :=
  let modifier := (aget tm t).getD (Cost.fin 1)
  if modifier = Cost.inf then Cost.inf else modifier

/-- `Race.get_terrain_modifier` (classmethod): dict get with default `1.0`. -/
def raceGetTerrainModifier (tm : RaceTable) (t : HexTerrainType) : Cost :=
  (aget tm t).getD (Cost.fin 1)

/-- `Race.get_modified_cost`: its first statement is
`HexTerrainType.get_cost(terrain_type)`, an attribute access on the enum
class; `get_cost` is not among `hexTerrainTypeAttrs`, so `AttributeError`
is raised before anything else happens. -/
def raceGetModifiedCost (tm : RaceTable) (t : HexTerrainType) : Except PyErr Cost :=
  if hexTerrainTypeHasAttr "get_cost" then
    -- dead branch: the class defines no such attribute (see
    -- `hexTerrainTypeAttrs`), so there is no method body to call
    Except.error PyErr.attributeError
  else Except.error PyErr.attributeError

/-- `Race.is_passable`: its first statement calls
`HexTerrainType.is_passable(terrain_type)`, which does not exist either. -/
def raceIsPassableHex (tm : RaceTable) (t : HexTerrainType) : Except PyErr Bool :=
  if hexTerrainTypeHasAttr "is_passable" then
    Except.error PyErr.attributeError  -- dead branch, as in `raceGetModifiedCost`
  else Except.error PyErr.attributeError

/-- A `HexMaze` as far as the modelled methods read it: its `terrain` dict. -/
abbrev HexTerrainMap := List ((ℤ × ℤ) × HexTerrainType)

/-- `HexMaze.get_terrain_cost`: reads the terrain (possibly `None`) and then
evaluates `HexTerrainType.get_cost(terrain)` — an `AttributeError` on every
input, since the enum has no `get_cost`. -/
def hexMazeGetTerrainCost (m : HexTerrainMap) (p : ℤ × ℤ) : Except PyErr Cost :=
  let _ := aget m p  -- `self.get_terrain_type(position)`, unused: the access below raises first
  if hexTerrainTypeHasAttr "get_cost" then
    Except.error PyErr.attributeError  -- dead branch, as in `raceGetModifiedCost`
  else Except.error PyErr.attributeError

/-! ### Hex A* (`hex_a_star.py`) -/

/-- A heap entry `(f_score, id(node), node)`. -/
abbrev HEntry := Cost × ℕ × HexCell

/-- Python's lexicographic comparison of heap entries: `f_score` first, then
the object id.  (The cell itself is only compared when both agree, i.e. for
identical entries, where the result is `False` either way.) -/
def hentryLt (a b : HEntry) : Bool :=
  decide (a.1 < b.1) || (decide (a.1 = b.1) && decide (a.2.1 < b.2.1))

/-- The reconstruction loop `while current in came_from` of `find_path`,
collecting cells end-first (the start is appended by the caller). -/
def hexReconstruct (cf : List ((ℤ × ℤ) × HexCell)) : ℕ → HexCell → Option (List HexCell)
  | 0, _ => none
  | fuel + 1, cur =>
      match aget cf (cellKey cur) with
      | none => some []
      | some prev => (hexReconstruct cf fuel prev).map (cur :: ·)

/-- The state threaded through the neighbour loop of `find_path`. -/
structure HexAState where
  openSet : List HEntry
  gScore : List ((ℤ × ℤ) × Cost)
  fScore : List ((ℤ × ℤ) × Cost)
  cameFrom : List ((ℤ × ℤ) × HexCell)

/-- The body of `for neighbor in hex_map.get_neighbors(current)`.
`gc` is `g_score[current]`, which no iteration of this loop can change
(a cell is never its own neighbour), so it is read once. -/
def hexRelax (e : HexCell) (race : RaceTable) (idOf : HexCell → ℕ)
    (closed : List (ℤ × ℤ)) (cur : HexCell) (gc : Cost)
    (st : HexAState) (nb : HexCell) : HexAState :=
  if cellKey nb ∈ closed then st
  else
    let mc := raceGetMovementCost race nb.terrain
    if mc = Cost.inf then st
    else
      let tg := gc + mc
      let skip : Bool :=
        match aget st.gScore (cellKey nb) with
        | some gn => decide (¬ tg < gn)
        | none => false
      if skip then st
      else
        let fw := tg + Cost.fin ((hexDistance nb e : ℤ) : ℚ)
        { openSet := st.openSet ++ [(fw, idOf nb, nb)],
          gScore := aset st.gScore (cellKey nb) tg,
          fScore := aset st.fScore (cellKey nb) fw,
          cameFrom := aset st.cameFrom (cellKey nb) cur }

/-- The `while open_set` loop of `find_path`. -/
def hexLoop (m : HexCells) (s e : HexCell) (race : RaceTable) (idOf : HexCell → ℕ) :
    ℕ → HexAState → List (ℤ × ℤ) → Option (Except PyErr (Option (List HexCell) × Cost))
  | 0, _, _ => none
  | fuel + 1, st, closed =>
      match popMin hentryLt st.openSet with
      | none => some (Except.ok (none, Cost.inf))
      | some ((_, _, cur), rest) =>
          if cellKey cur = cellKey e then
            match hexReconstruct st.cameFrom (st.cameFrom.length + 1) cur with
            | none => none
            | some chain =>
                match aget st.gScore (cellKey e) with
                | none => some (Except.error PyErr.keyError)
                | some ge => some (Except.ok (some ((chain ++ [s]).reverse), ge))
          else
            let closed1 := if cellKey cur ∈ closed then closed else closed ++ [cellKey cur]
            match aget st.gScore (cellKey cur) with
            | none => some (Except.error PyErr.keyError)
            | some gc =>
                let st1 := (hexMapNeighbors m cur).foldl
                  (hexRelax e race idOf closed1 cur gc) { st with openSet := rest }
                hexLoop m s e race idOf fuel st1 closed1

/-- `find_path(hex_map, start, end, race)` of `hex_a_star.py`.  `start` and
`end` are the map's designated cells, which may be Python `None`
(`Option`): the very first statements `f_score = {start: start.distance(end)}`
(and `distance` reading `other.q`) then raise `AttributeError`.  `idOf`
models Python's `id()`: an arbitrary injective assignment of integers to the
cell objects, used as the heap tie-breaker. -/
def findPathHex (m : HexCells) (start target : Option HexCell) (race : RaceTable)
    (idOf : HexCell → ℕ) (fuel : ℕ) :
    Option (Except PyErr (Option (List HexCell) × Cost)) :=
  match start, target with
  | none, _ => some (Except.error PyErr.attributeError)
  | some _, none => some (Except.error PyErr.attributeError)
  | some s, some e =>
      hexLoop m s e race idOf fuel
        { openSet := [(Cost.fin ((hexDistance s e : ℤ) : ℚ), idOf s, s)],
          gScore := [(cellKey s, Cost.fin 0)],
          fScore := [(cellKey s, Cost.fin ((hexDistance s e : ℤ) : ℚ))],
          cameFrom := [] }
        []

deriving instance DecidableEq for Except

/-- Modelled from the spec: the Agent Modifier Layer's
`get_effective_cost(kind)` "returns `base_cost(kind) × modifier(kind)`,
saturating to infinite if either operand is infinite".  The hex code
declares no base-cost table at all (`HexTerrainType` has no `get_cost`, see
`hexTerrainTypeAttrs`), so the spec's saturating product is rendered here
as a function of the two operands; per the spec, an absolutely impassable
kind such as WALL has the canonical base cost `inf`. -/
def specEffectiveCost (base modifier : Cost) : Cost :=
  match base, modifier with
  | Cost.fin a, Cost.fin b => Cost.fin (a * b)
  | _, _ => Cost.inf

/-! Concrete hex fixtures used by the counterexamples. -/

/-- A three-cell hex corridor START – WALL – END. -/
def wallS : HexCell := ⟨0, 0, HexTerrainType.START⟩

def wallW : HexCell := ⟨1, 0, HexTerrainType.WALL⟩

def wallE : HexCell := ⟨2, 0, HexTerrainType.END⟩

def wallHexMap : HexCells :=
  [((0, 0), wallS), ((1, 0), wallW), ((2, 0), wallE)]

/-- A four-cell hex map with two equal-cost routes: START at the origin,
END at `(1,1)`, and the two intermediate GRASS cells `(1,0)` and `(0,1)`
both adjacent to both. -/
def tieS : HexCell := ⟨0, 0, HexTerrainType.START⟩

def tieA : HexCell := ⟨1, 0, HexTerrainType.GRASS⟩

def tieB : HexCell := ⟨0, 1, HexTerrainType.GRASS⟩

def tieE : HexCell := ⟨1, 1, HexTerrainType.END⟩

def tieHexMap : HexCells :=
  [((0, 0), tieS), ((1, 0), tieA), ((0, 1), tieB), ((1, 1), tieE)]

/-- One possible CPython id assignment for the four objects of `tieHexMap`:
the cell `(1,0)` allocated before `(0,1)`. -/
def tieIdA : HexCell → ℕ := fun c =>
  if cellKey c = ((0 : ℤ), (0 : ℤ)) then 1
  else if cellKey c = ((1 : ℤ), (0 : ℤ)) then 2
  else if cellKey c = ((0 : ℤ), (1 : ℤ)) then 3
  else 4

/-- Another possible id assignment: the same objects with `(0,1)` allocated
before `(1,0)`.  Both assignments are injective on the map's cells. -/
def tieIdB : HexCell → ℕ := fun c =>
  if cellKey c = ((0 : ℤ), (0 : ℤ)) then 1
  else if cellKey c = ((1 : ℤ), (0 : ℤ)) then 3
  else if cellKey c = ((0 : ℤ), (1 : ℤ)) then 2
  else 4

/-! ## Claim C10 -/

/-- C10: in `TerrainMaze.TERRAIN_TYPES` the key `'F'` is bound twice — entry
2 to Forest (cost 3.0) and entry 10 to Finish (cost 1.0) — and the later
Finish binding wins in the constructed dict; hence `get_terrain_cost`
returns 1.0 (never the documented Forest cost 3.0) for every cell whose
token is `'F'`. -/
theorem terrainTypes_duplicate_F_finish_wins :
    (TERRAIN_TYPES.get? 2 = some ("F", ⟨"Forest", Cost.fin 3, true, "darkgreen"⟩) ∧
     TERRAIN_TYPES.get? 10 = some ("F", ⟨"Finish", Cost.fin 1, true, "lightgreen"⟩)) ∧
    aget terrainTypesDict "F" = some ⟨"Finish", Cost.fin 1, true, "lightgreen"⟩ ∧
    ∀ (g : Grid) (p : Pos), getTerrainType g p = PyCell.str "F" →
      getTerrainCost g p = Cost.fin 1 ∧ getTerrainCost g p ≠ Cost.fin 3 := by
  refine ⟨⟨by decide, by decide⟩, by decide, ?_⟩
  intro g p h
  simp only [getTerrainCost, getTerrainInfo, h]
  decide

/-- Witness for C10 at a concrete grid holding an `'F'` cell. -/
theorem terrainTypes_duplicate_F_finish_wins_witness :
    getTerrainType [[PyCell.str "F"]] (0, 0) = PyCell.str "F" ∧
    getTerrainCost [[PyCell.str "F"]] (0, 0) = Cost.fin 1 ∧
    getTerrainCost [[PyCell.str "F"]] (0, 0) ≠ Cost.fin 3 :=
  ⟨by decide, terrainTypes_duplicate_F_finish_wins.2.2 [[PyCell.str "F"]] (0, 0) (by decide)⟩

/-! ## Claim C7 -/

/-- C7 counterexample: the token `'X'` is not in the terrain table, and the
lookup's safe default is **impassable with infinite cost**, not "the most
permissive ordinary terrain (finite ordinary cost, passable)" the claim
asserts. -/
theorem terrain_unknown_token_cex :
    terrainLookup (PyCell.str "X") = none ∧
    getTerrainCost [[PyCell.str "X"]] (0, 0) = Cost.inf ∧
    isPassableT [[PyCell.str "X"]] (0, 0) = false := by
  decide

/-- C7 amended: a lookup for an unknown/unset token does not fail, but the
default it returns is the `Unknown` info — infinite cost, impassable — in
`TerrainMaze.get_terrain_info`; only the race-modifier lookup
(`Race.get_terrain_modifier`) defaults to the permissive 1.0. -/
theorem terrain_unknown_token_amended :
    (∀ (g : Grid) (p : Pos), terrainLookup (getTerrainType g p) = none →
        getTerrainInfo g p = unknownTerrain ∧
        getTerrainCost g p = Cost.inf ∧ isPassableT g p = false) ∧
    (∀ (tm : RaceTable) (t : HexTerrainType), aget tm t = none →
        raceGetTerrainModifier tm t = Cost.fin 1) := by
  constructor
  · intro g p h
    have hinfo : getTerrainInfo g p = unknownTerrain := by
      simp [getTerrainInfo, h]
    refine ⟨hinfo, ?_, ?_⟩
    · simp [getTerrainCost, hinfo, unknownTerrain]
    · simp [isPassableT, hinfo, unknownTerrain]
  · intro tm t h
    simp [raceGetTerrainModifier, h]

/-- Witness for the amended C7 at an unknown square token and at a race
table with no binding for GRASS. -/
theorem terrain_unknown_token_amended_witness :
    (getTerrainInfo [[PyCell.str "X"]] (0, 0) = unknownTerrain ∧
     getTerrainCost [[PyCell.str "X"]] (0, 0) = Cost.inf ∧
     isPassableT [[PyCell.str "X"]] (0, 0) = false) ∧
    raceGetTerrainModifier [] HexTerrainType.GRASS = Cost.fin 1 :=
  ⟨terrain_unknown_token_amended.1 [[PyCell.str "X"]] (0, 0) (by decide),
   terrain_unknown_token_amended.2 [] HexTerrainType.GRASS (by decide)⟩

/-! ## Claim C9 -/

/-- C9: the `HexTerrainType` enum defines neither a `get_cost` nor an
`is_passable` classmethod, so `HexMaze.get_terrain_cost`,
`Race.get_modified_cost` and `Race.is_passable` raise `AttributeError`
on every input — the hex base-cost lookup is total on no terrain kind. -/
theorem hex_cost_lookup_always_attribute_error :
    hexTerrainTypeHasAttr "get_cost" = false ∧
    hexTerrainTypeHasAttr "is_passable" = false ∧
    (∀ (m : HexTerrainMap) (p : ℤ × ℤ),
        hexMazeGetTerrainCost m p = Except.error PyErr.attributeError) ∧
    (∀ (tm : RaceTable) (t : HexTerrainType),
        raceGetModifiedCost tm t = Except.error PyErr.attributeError ∧
        raceIsPassableHex tm t = Except.error PyErr.attributeError) := by
  refine ⟨by decide, by decide, ?_, ?_⟩
  · intro m p
    simp [hexMazeGetTerrainCost]
  · intro tm t
    constructor
    · simp [raceGetModifiedCost]
    · simp [raceIsPassableHex]

/-! ## Claim C4 -/

/-- C4 counterexample: for the WALL kind — absolutely impassable, base cost
canonically infinite per the spec — and the base agent class (modifier 1.0
on every kind), the spec's effective cost `base × modifier` saturates to
infinite, yet the cost the hex A* search charges
(`race.get_movement_cost`) is the finite 1.0; consequently A* happily
routes straight *through* the wall cell of `wallHexMap` at total cost 2. -/
theorem effective_cost_not_base_times_modifier_cex :
    raceGetMovementCost baseRaceModifiers HexTerrainType.WALL = Cost.fin 1 ∧
    specEffectiveCost Cost.inf (Cost.fin 1) = Cost.inf ∧
    Cost.fin 1 ≠ Cost.inf ∧
    findPathHex wallHexMap (some wallS) (some wallE) baseRaceModifiers tieIdA 30
      = some (Except.ok (some [wallS, wallW, wallE], Cost.fin 2)) := by
  refine ⟨by decide, by decide, by decide, by decide⟩

/-- C4 amended: the movement cost the search algorithms charge for entering
a hex of a given kind is exactly the class's modifier for that kind
(`Race.get_terrain_modifier`, default 1.0) — the kind's base cost is not
multiplied in (no hex base-cost lookup even exists, see C9) — and the
charge is infinite exactly when the modifier is. -/
theorem effective_cost_is_modifier_only :
    ∀ (tm : RaceTable) (t : HexTerrainType),
      raceGetMovementCost tm t = raceGetTerrainModifier tm t ∧
      (raceGetMovementCost tm t = Cost.inf ↔ raceGetTerrainModifier tm t = Cost.inf) := by
  intro tm t
  have h : raceGetMovementCost tm t = raceGetTerrainModifier tm t := by
    simp only [raceGetMovementCost, raceGetTerrainModifier]
    split
    · next heq => exact heq.symm
    · rfl
  exact ⟨h, by rw [h]⟩

/-! ## Claim C5 -/

/-- C5 (code bug in the hex A*): BFS and Dijkstra return `None` immediately
when no start or no end is declared, but `find_path` of `hex_a_star.py` has
no such guard — handed the map's absent (`None`) start or end cell it
raises `AttributeError` (`None.distance` / `other.q`) instead of returning
the absent result the spec's shared contract requires. -/
theorem no_start_or_end_behavior :
    (∀ (g : Grid) (fuel : ℕ), getStartPosition g = none ∨ getEndPosition g = none →
        bfs g fuel = some none ∧ dijkstra g fuel = some none) ∧
    (∀ (m : HexCells) (e : Option HexCell) (race : RaceTable) (idOf : HexCell → ℕ)
        (fuel : ℕ),
        findPathHex m none e race idOf fuel = some (Except.error PyErr.attributeError)) ∧
    (∀ (m : HexCells) (s : HexCell) (race : RaceTable) (idOf : HexCell → ℕ) (fuel : ℕ),
        findPathHex m (some s) none race idOf fuel
          = some (Except.error PyErr.attributeError)) := by
  refine ⟨?_, ?_, ?_⟩
  · intro g fuel h
    rcases h with h | h
    · constructor
      · cases he : getEndPosition g <;> simp [bfs, h, he]
      · cases he : getEndPosition g <;> simp [dijkstra, h, he]
    · constructor
      · cases hs : getStartPosition g <;> simp [bfs, h, hs]
      · cases hs : getStartPosition g <;> simp [dijkstra, h, hs]
  · intro m e race idOf fuel
    rfl
  · intro m s race idOf fuel
    rfl

/-- Witness for C5: a square grid with no start cell, and the hex search
handed `None` endpoints. -/
theorem no_start_or_end_behavior_witness :
    (bfs [[PyCell.int 0]] 7 = some none ∧ dijkstra [[PyCell.int 0]] 7 = some none) ∧
    findPathHex [] none none baseRaceModifiers (fun _ => 0) 5
      = some (Except.error PyErr.attributeError) ∧
    findPathHex [] (some wallS) none baseRaceModifiers (fun _ => 0) 5
      = some (Except.error PyErr.attributeError) :=
  ⟨no_start_or_end_behavior.1 [[PyCell.int 0]] 7 (Or.inl (by decide)),
   no_start_or_end_behavior.2.1 [] none baseRaceModifiers (fun _ => 0) 5,
   no_start_or_end_behavior.2.2 [] wallS baseRaceModifiers (fun _ => 0) 5⟩

/-! ## Claim C6 -/

/-- C6 counterexample: `find_optimal_gathering_point` with exactly **one**
valid source returns that source itself (arrival time 0), not the absent
result the claim asserts for "fewer than two sources". -/
theorem rendezvous_single_source_cex :
    findOptimalGatheringPoint [[PyCell.str "G", PyCell.str "G"]] [(0, 0)] none 30
      = some (Except.ok (some (0, 0))) := by
  decide

/-- C6 amended: neither finder raises; the base
`EquidistantFinder.find_equidistant_point` does return the absent result
whenever fewer than two heroes exist, and
`find_optimal_gathering_point` returns the absent result for an *empty*
source list — but for a single valid source it returns that source rather
than the absent result (see the counterexample). -/
theorem rendezvous_fewer_than_two_sources_amended :
    (∀ (g : Grid) (speeds : Option (List ℚ)) (fuel : ℕ),
        findOptimalGatheringPoint g [] speeds fuel = some (Except.ok none)) ∧
    (∀ (g : Grid) (fuel : ℕ), (heroesOf g).length < 2 →
        findEquidistantPoint g fuel = some none) := by
  constructor
  · intro g speeds fuel
    simp [findOptimalGatheringPoint]
  · intro g fuel h
    simp [findEquidistantPoint, if_pos h]

/-- Witness for the amended C6: a one-hero grid and an empty source list. -/
theorem rendezvous_fewer_than_two_sources_amended_witness :
    (heroesOf [[PyCell.str "1", PyCell.int 0]]).length < 2 ∧
    findEquidistantPoint [[PyCell.str "1", PyCell.int 0]] 5 = some none ∧
    findOptimalGatheringPoint [] [] none 3 = some (Except.ok none) :=
  ⟨by decide,
   rendezvous_fewer_than_two_sources_amended.2 [[PyCell.str "1", PyCell.int 0]] 5 (by decide),
   rendezvous_fewer_than_two_sources_amended.1 [] none 3⟩

/-! ## Claim C8 (counterexample) -/

/-- C8 counterexample: the A* frontier breaks equal-`f_score` ties by
`id(object)` — incidental object identity, not an insertion sequence
number.  On `tieHexMap` the two injective id assignments `tieIdA`/`tieIdB`
(the same objects allocated in a different order) make `find_path` return
two *different* paths of equal cost: the tie between the two equally good
intermediate cells is decided by the ids. -/
theorem astar_id_tiebreak_cex :
    findPathHex tieHexMap (some tieS) (some tieE) baseRaceModifiers tieIdA 30
      = some (Except.ok (some [tieS, tieA, tieE], Cost.fin 2)) ∧
    findPathHex tieHexMap (some tieS) (some tieE) baseRaceModifiers tieIdB 30
      = some (Except.ok (some [tieS, tieB, tieE], Cost.fin 2)) ∧
    ([tieS, tieA, tieE] : List HexCell) ≠ [tieS, tieB, tieE] := by
  refine ⟨by decide, by decide, by decide⟩

/-! ## Claim C8 (amended theorem): the search depends only on the relative
order of the object ids.  The proof is a step-for-step simulation between a
run and the run whose heap entries carry the second id assignment. -/

/-- Replace the id component of a heap entry (entries always carry the id of
their own cell, see `EntryIds`). -/
def mapEntryId (idOf2 : HexCell → ℕ) (a : HEntry) : HEntry := (a.1, idOf2 a.2.2, a.2.2)

/-- Every entry of the list carries the id of its own cell. -/
def EntryIds (idOf : HexCell → ℕ) (l : List HEntry) : Prop :=
  ∀ e ∈ l, e.2.1 = idOf e.2.2

/-- The corresponding state of the second run: same scores, same tree, the
open set's ids reassigned. -/
def mapAState (idOf2 : HexCell → ℕ) (st : HexAState) : HexAState :=
  { st with openSet := st.openSet.map (mapEntryId idOf2) }

theorem hentryLt_mapEntryId {idOf idOf2 : HexCell → ℕ}
    (iso : ∀ c₁ c₂ : HexCell, idOf c₁ < idOf c₂ ↔ idOf2 c₁ < idOf2 c₂)
    {a b : HEntry} (ha : a.2.1 = idOf a.2.2) (hb : b.2.1 = idOf b.2.2) :
    hentryLt (mapEntryId idOf2 a) (mapEntryId idOf2 b) = hentryLt a b := by
  simp only [hentryLt, mapEntryId]
  rw [ha, hb]
  congr 1
  congr 1
  exact decide_eq_decide.mpr (iso a.2.2 b.2.2).symm

theorem mapEntryId_inj {idOf idOf2 : HexCell → ℕ} {a m : HEntry}
    (ha : a.2.1 = idOf a.2.2) (hm : m.2.1 = idOf m.2.2) :
    mapEntryId idOf2 a = mapEntryId idOf2 m ↔ a = m := by
  constructor
  · intro h
    simp only [mapEntryId, Prod.mk.injEq] at h
    obtain ⟨h1, _, h3⟩ := h
    obtain ⟨a1, a2, a3⟩ := a
    obtain ⟨m1, m2, m3⟩ := m
    simp only at h1 h3 ha hm
    subst h1
    subst h3
    rw [ha, hm]
  · intro h
    rw [h]

theorem foldlMin_mapEntryId {idOf idOf2 : HexCell → ℕ}
    (iso : ∀ c₁ c₂ : HexCell, idOf c₁ < idOf c₂ ↔ idOf2 c₁ < idOf2 c₂)
    (t : List HEntry) (a : HEntry) (h : ∀ x ∈ a :: t, x.2.1 = idOf x.2.2) :
    (t.map (mapEntryId idOf2)).foldl
        (fun m x => if hentryLt x m then x else m) (mapEntryId idOf2 a)
      = mapEntryId idOf2 (t.foldl (fun m x => if hentryLt x m then x else m) a) := by
  induction t generalizing a with
  | nil => simp
  | cons b t ih =>
      have hb : b.2.1 = idOf b.2.2 := h b (List.mem_cons_of_mem _ (List.mem_cons_self _ _))
      have ha : a.2.1 = idOf a.2.2 := h a (List.mem_cons_self _ _)
      simp only [List.map_cons, List.foldl_cons]
      rw [hentryLt_mapEntryId iso hb ha]
      rw [← apply_ite (mapEntryId idOf2)]
      rw [ih]
      intro x hx
      rcases List.mem_cons.mp hx with hxa | hx
      · subst hxa
        by_cases hlt : hentryLt b a
        · simpa [hlt] using hb
        · simpa [hlt] using ha
      · exact h x (List.mem_cons_of_mem _ (List.mem_cons_of_mem _ hx))

theorem removeFirst_mapEntryId {idOf idOf2 : HexCell → ℕ} {l : List HEntry} {m : HEntry}
    (hl : ∀ x ∈ l, x.2.1 = idOf x.2.2) (hm : m.2.1 = idOf m.2.2) :
    removeFirst (l.map (mapEntryId idOf2)) (mapEntryId idOf2 m)
      = (removeFirst l m).map (mapEntryId idOf2) := by
  induction l with
  | nil => simp [removeFirst]
  | cons a t ih =>
      have ha : a.2.1 = idOf a.2.2 := hl a (List.mem_cons_self _ _)
      simp only [List.map_cons, removeFirst]
      by_cases hcase : a = m
      · rw [if_pos ((@mapEntryId_inj idOf idOf2 a m ha hm).mpr hcase), if_pos hcase]
      · rw [if_neg (fun hc => hcase ((@mapEntryId_inj idOf idOf2 a m ha hm).mp hc)),
          if_neg hcase, List.map_cons,
          ih (fun x hx => hl x (List.mem_cons_of_mem _ hx))]

theorem popMin_mapEntryId {idOf idOf2 : HexCell → ℕ}
    (iso : ∀ c₁ c₂ : HexCell, idOf c₁ < idOf c₂ ↔ idOf2 c₁ < idOf2 c₂)
    (l : List HEntry) (hl : ∀ x ∈ l, x.2.1 = idOf x.2.2) :
    popMin hentryLt (l.map (mapEntryId idOf2))
      = (popMin hentryLt l).map
          (fun p => (mapEntryId idOf2 p.1, p.2.map (mapEntryId idOf2))) := by
  match l with
  | [] => simp [popMin, listMin]
  | a :: t =>
      simp only [popMin, listMin, List.map_cons]
      rw [foldlMin_mapEntryId iso t a hl]
      simp only [Option.map_some']
      have hmem := foldlMin_mem hentryLt a t
      have hmin : (t.foldl (fun m x => if hentryLt x m then x else m) a).2.1
          = idOf (t.foldl (fun m x => if hentryLt x m then x else m) a).2.2 :=
        hl _ hmem
      rw [show mapEntryId idOf2 a :: t.map (mapEntryId idOf2)
            = (a :: t).map (mapEntryId idOf2) from rfl]
      rw [removeFirst_mapEntryId hl hmin]

theorem hexRelax_mapEntryId {idOf idOf2 : HexCell → ℕ}
    (e : HexCell) (race : RaceTable) (closed : List (ℤ × ℤ)) (cur : HexCell)
    (gc : Cost) (st : HexAState) (nb : HexCell) :
    hexRelax e race idOf2 closed cur gc (mapAState idOf2 st) nb
      = mapAState idOf2 (hexRelax e race idOf closed cur gc st nb) := by
  simp only [hexRelax, mapAState]
  split_ifs <;> first
    | rfl
    | simp [List.map_append, mapEntryId]

theorem hexRelax_entryIds {idOf : HexCell → ℕ}
    (e : HexCell) (race : RaceTable) (closed : List (ℤ × ℤ)) (cur : HexCell)
    (gc : Cost) (st : HexAState) (nb : HexCell)
    (h : EntryIds idOf st.openSet) :
    EntryIds idOf (hexRelax e race idOf closed cur gc st nb).openSet := by
  simp only [hexRelax]
  split_ifs <;> try exact h
  intro x hx
  rcases List.mem_append.mp hx with hx | hx
  · exact h x hx
  · simp only [List.mem_singleton] at hx
    subst hx
    rfl

theorem hexFold_mapEntryId {idOf idOf2 : HexCell → ℕ}
    (e : HexCell) (race : RaceTable) (closed : List (ℤ × ℤ)) (cur : HexCell)
    (gc : Cost) (nbs : List HexCell) (st : HexAState) :
    nbs.foldl (hexRelax e race idOf2 closed cur gc) (mapAState idOf2 st)
      = mapAState idOf2 (nbs.foldl (hexRelax e race idOf closed cur gc) st) := by
  induction nbs generalizing st with
  | nil => rfl
  | cons nb t ih =>
      simp only [List.foldl_cons]
      rw [@hexRelax_mapEntryId idOf idOf2 e race closed cur gc st nb, ih]

theorem hexFold_entryIds {idOf : HexCell → ℕ}
    (e : HexCell) (race : RaceTable) (closed : List (ℤ × ℤ)) (cur : HexCell)
    (gc : Cost) (nbs : List HexCell) (st : HexAState)
    (h : EntryIds idOf st.openSet) :
    EntryIds idOf ((nbs.foldl (hexRelax e race idOf closed cur gc) st)).openSet := by
  induction nbs generalizing st with
  | nil => exact h
  | cons nb t ih =>
      exact ih _ (hexRelax_entryIds e race closed cur gc st nb h)

theorem hexLoop_mapEntryId {idOf idOf2 : HexCell → ℕ}
    (iso : ∀ c₁ c₂ : HexCell, idOf c₁ < idOf c₂ ↔ idOf2 c₁ < idOf2 c₂)
    (m : HexCells) (s e : HexCell) (race : RaceTable) :
    ∀ (fuel : ℕ) (st : HexAState) (closed : List (ℤ × ℤ)),
      EntryIds idOf st.openSet →
      hexLoop m s e race idOf2 fuel (mapAState idOf2 st) closed
        = hexLoop m s e race idOf fuel st closed := by
  intro fuel
  induction fuel with
  | zero => intro st closed _; rfl
  | succ fuel ih =>
      intro st closed hids
      simp only [hexLoop, mapAState]
      rw [popMin_mapEntryId iso st.openSet hids]
      cases hpop : popMin hentryLt st.openSet with
      | none => rfl
      | some pr =>
          obtain ⟨⟨f, i, cur⟩, rest⟩ := pr
          simp only [Option.map_some', mapEntryId]
          have hrest : EntryIds idOf rest := by
            intro x hx
            have hsub : x ∈ st.openSet := by
              rw [popMin_rest hpop] at hx
              exact removeFirst_subset hx
            exact hids x hsub
          by_cases hend : cellKey cur = cellKey e
          · simp only [if_pos hend]
          · simp only [if_neg hend]
            cases hg : aget st.gScore (cellKey cur) with
            | none => rfl
            | some gc =>
                exact show
                    hexLoop m s e race idOf2 fuel
                      ((hexMapNeighbors m cur).foldl
                        (hexRelax e race idOf2
                          (if cellKey cur ∈ closed then closed else closed ++ [cellKey cur]) cur gc)
                        (mapAState idOf2 { openSet := rest, gScore := st.gScore, fScore := st.fScore, cameFrom := st.cameFrom }))
                      (if cellKey cur ∈ closed then closed else closed ++ [cellKey cur])
                    = hexLoop m s e race idOf fuel
                      ((hexMapNeighbors m cur).foldl
                        (hexRelax e race idOf
                          (if cellKey cur ∈ closed then closed else closed ++ [cellKey cur]) cur gc)
                        { openSet := rest, gScore := st.gScore, fScore := st.fScore, cameFrom := st.cameFrom })
                      (if cellKey cur ∈ closed then closed else closed ++ [cellKey cur])
                  from by
                  rw [@hexFold_mapEntryId idOf idOf2 e race _ _ _ _ _]
                  exact ih _ _ (hexFold_entryIds e race _ cur gc (hexMapNeighbors m cur)
                    { openSet := rest, gScore := st.gScore, fScore := st.fScore, cameFrom := st.cameFrom } hrest)

/-- C8 amended: the hex A* run is a pure function of the map, the endpoints,
the class *and the id assignment*: its result depends only on the relative
order the ids put on the cell objects.  Two runs with order-isomorphic id
assignments (in particular, two runs in the same process, where ids are
fixed) return identical results; assignments ordering the objects
differently may differ (see `astar_id_tiebreak_cex`). -/
theorem astar_depends_only_on_id_order :
    ∀ (m : HexCells) (s e : Option HexCell) (race : RaceTable)
      (idOf idOf2 : HexCell → ℕ) (fuel : ℕ),
      (∀ c₁ c₂ : HexCell, idOf c₁ < idOf c₂ ↔ idOf2 c₁ < idOf2 c₂) →
      findPathHex m s e race idOf2 fuel = findPathHex m s e race idOf fuel := by
  intro m s e race idOf idOf2 fuel iso
  match s, e with
  | none, _ => rfl
  | some _, none => rfl
  | some s, some e =>
      show hexLoop m s e race idOf2 fuel _ _ = hexLoop m s e race idOf fuel _ _
      have hinit :
          ({ openSet := [(Cost.fin ((hexDistance s e : ℤ) : ℚ), idOf2 s, s)],
             gScore := [(cellKey s, Cost.fin 0)],
             fScore := [(cellKey s, Cost.fin ((hexDistance s e : ℤ) : ℚ))],
             cameFrom := [] } : HexAState)
          = mapAState idOf2
              { openSet := [(Cost.fin ((hexDistance s e : ℤ) : ℚ), idOf s, s)],
                gScore := [(cellKey s, Cost.fin 0)],
                fScore := [(cellKey s, Cost.fin ((hexDistance s e : ℤ) : ℚ))],
                cameFrom := [] } := rfl
      rw [hinit]
      exact hexLoop_mapEntryId iso m s e race fuel _ [] (by
        intro x hx
        simp only [List.mem_singleton] at hx
        subst hx
        rfl)

/-- Witness: shifting every id by 5 preserves the order, so the runs agree. -/
theorem astar_depends_only_on_id_order_witness :
    findPathHex tieHexMap (some tieS) (some tieE) baseRaceModifiers
        (fun c => tieIdA c + 5) 30
      = findPathHex tieHexMap (some tieS) (some tieE) baseRaceModifiers tieIdA 30 :=
  astar_depends_only_on_id_order tieHexMap (some tieS) (some tieE) baseRaceModifiers
    tieIdA (fun c => tieIdA c + 5) 30 (by
    intro c₁ c₂
    show tieIdA c₁ < tieIdA c₂ ↔ tieIdA c₁ + 5 < tieIdA c₂ + 5
    omega)

/-! ## Claim C2: BFS returns a path with the fewest edges.

The proof tracks a ghost depth function `d` (meaningful on visited cells)
through the loop.  The invariants say: the `visited` tree records parents at
depth exactly one more than their predecessor; the queue is sorted by depth,
spans at most two consecutive depths, and every already-dequeued (processed)
cell sits no deeper than anything still queued and has all its neighbours
visited within depth `+1`.  From these, any passable path from the start
yields either a depth bound on its endpoint or a queued witness along it. -/

/-- The BFS loop invariant over `(queue, visited)` with ghost depths `d`. -/
structure BfsInv (g : Grid) (s : Pos) (queue : List Pos) (vis : Visited)
    (d : Pos → ℕ) : Prop where
  start_vis : aget vis s = some none
  start_d : d s = 0
  none_start : ∀ p, aget vis p = some none → p = s
  parent : ∀ p u, aget vis p = some (some u) →
    p ∈ baseNeighbors g u ∧ (aget vis u).isSome ∧ d p = d u + 1
  qdom : ∀ p ∈ queue, (aget vis p).isSome
  qsorted : queue.Pairwise (fun a b => d a ≤ d b)
  qband : ∀ a ∈ queue, ∀ b ∈ queue, d a ≤ d b + 1
  qnodup : queue.Nodup
  proc_lo : ∀ v, (aget vis v).isSome → v ∉ queue → ∀ b ∈ queue, d v ≤ d b
  proc_relax : ∀ v, (aget vis v).isSome → v ∉ queue →
    ∀ u ∈ baseNeighbors g v, (aget vis u).isSome ∧ d u ≤ d v + 1

/-- Walking the parent tree from any visited cell measures exactly its ghost
depth. -/
theorem reconstruct_length {s : Pos} {vis : Visited} {d : Pos → ℕ}
    (hns : ∀ p, aget vis p = some none → p = s) (hd0 : d s = 0)
    (hpar : ∀ p u, aget vis p = some (some u) → (aget vis u).isSome ∧ d p = d u + 1) :
    ∀ (fuelR : ℕ) (cur : Pos) (chain : List Pos),
      reconstructPath vis fuelR cur = some chain → chain.length = d cur + 1 := by
  intro fuelR
  induction fuelR with
  | zero => intro cur chain h; exact absurd h (by simp [reconstructPath])
  | succ fuelR ih =>
      intro cur chain h
      simp only [reconstructPath] at h
      cases hv : aget vis cur with
      | none => rw [hv] at h; exact absurd h (by simp)
      | some o =>
          rw [hv] at h
          cases o with
          | none =>
              simp only [Option.some.injEq] at h
              subst h
              rw [hns cur hv, hd0]
              simp
          | some prev =>
              simp only [] at h
              cases hr : reconstructPath vis fuelR prev with
              | none => rw [hr] at h; exact absurd h (by simp)
              | some chain0 =>
                  rw [hr] at h
                  simp only [Option.map_some', Option.some.injEq] at h
                  subst h
                  have hp := hpar cur prev hv
                  simp only [List.length_cons, ih prev chain0 hr, hp.2]

/-- Walk-down: following a passable path from a visited cell of depth at
most `k` either bounds the endpoint's depth by `k` plus the remaining edge
count, or runs into a still-queued cell within that bound. -/
theorem bfs_walkdown {g : Grid} {vis : Visited} {d : Pos → ℕ} {queue : List Pos}
    (hrelax : ∀ v, (aget vis v).isSome → v ∉ queue →
      ∀ u ∈ baseNeighbors g v, (aget vis u).isSome ∧ d u ≤ d v + 1) :
    ∀ (rest : List Pos) (v : Pos) (k : ℕ) (z : Pos),
      List.Chain' (fun a b => b ∈ baseNeighbors g a) (v :: rest) →
      (v :: rest).getLast? = some z →
      (aget vis v).isSome → d v ≤ k →
      ((aget vis z).isSome ∧ d z ≤ k + rest.length) ∨
      (∃ w ∈ queue, d w ≤ k + rest.length) := by
  intro rest
  induction rest with
  | nil =>
      intro v k z _ hlast hv hk
      simp only [List.getLast?_singleton, Option.some.injEq] at hlast
      subst hlast
      exact Or.inl ⟨hv, by simpa using hk⟩
  | cons u rest ih =>
      intro v k z hchain hlast hv hk
      by_cases hq : v ∈ queue
      · exact Or.inr ⟨v, hq, le_trans hk (by omega)⟩
      · rw [List.chain'_cons] at hchain
        have hu := hrelax v hv hq u hchain.1
        have hlast2 : (u :: rest).getLast? = some z := by
          rwa [List.getLast?_cons_cons] at hlast
        rcases ih u (k + 1) z hchain.2 hlast2 hu.1 (le_trans hu.2 (by omega)) with h | h
        · exact Or.inl ⟨h.1, by simpa [Nat.add_assoc, Nat.add_comm 1] using h.2⟩
        · obtain ⟨w, hw, hwd⟩ := h
          exact Or.inr ⟨w, hw, by simpa [Nat.add_assoc, Nat.add_comm 1] using hwd⟩

/-- Effect of the BFS neighbour loop: the queue grows by a duplicate-free
block `news` of previously unvisited neighbours, each recorded with parent
`cur`; every other binding is untouched, and afterwards every neighbour is
visited. -/
theorem bfs_fold_effect (cur : Pos) :
    ∀ (nbs : List Pos) (q0 : List Pos) (vis0 : Visited),
      ∃ news : List Pos,
        (nbs.foldl
          (fun (acc : List Pos × Visited) nb =>
            if (aget acc.2 nb).isSome then acc
            else (acc.1 ++ [nb], aset acc.2 nb (some cur))) (q0, vis0)).1
          = q0 ++ news ∧
        news.Nodup ∧
        (∀ p ∈ news, p ∈ nbs) ∧
        (∀ p, aget (nbs.foldl
          (fun (acc : List Pos × Visited) nb =>
            if (aget acc.2 nb).isSome then acc
            else (acc.1 ++ [nb], aset acc.2 nb (some cur))) (q0, vis0)).2 p
          = if p ∈ news then some (some cur) else aget vis0 p) ∧
        (∀ p ∈ news, aget vis0 p = none) ∧
        (∀ nb ∈ nbs, (aget (nbs.foldl
          (fun (acc : List Pos × Visited) nb =>
            if (aget acc.2 nb).isSome then acc
            else (acc.1 ++ [nb], aset acc.2 nb (some cur))) (q0, vis0)).2 nb).isSome) := by
  intro nbs
  induction nbs with
  | nil =>
      intro q0 vis0
      exact ⟨[], by simp, by simp, by simp, by simp, by simp, by simp⟩
  | cons nb t ih =>
      intro q0 vis0
      simp only [List.foldl_cons]
      by_cases hv : (aget vis0 nb).isSome
      · rw [if_pos hv]
        obtain ⟨news, h1, h2, h3, h4, h5, h6⟩ := ih q0 vis0
        refine ⟨news, h1, h2, fun p hp => List.mem_cons_of_mem _ (h3 p hp), h4, h5, ?_⟩
        intro x hx
        rcases List.mem_cons.mp hx with hxa | hx
        · subst hxa
          rw [h4 x]
          by_cases hn : x ∈ news
          · simp [hn]
          · simpa [hn] using hv
        · exact h6 x hx
      · rw [if_neg hv]
        obtain ⟨news, h1, h2, h3, h4, h5, h6⟩ := ih (q0 ++ [nb]) (aset vis0 nb (some cur))
        have hnbnews : nb ∉ news := by
          intro hcon
          have := h5 nb hcon
          rw [aget_aset_self] at this
          cases this
        refine ⟨nb :: news, ?_, ?_, ?_, ?_, ?_, ?_⟩
        · rw [h1]
          simp
        · exact List.nodup_cons.mpr ⟨hnbnews, h2⟩
        · intro p hp
          rcases List.mem_cons.mp hp with hpa | hp
          · exact hpa ▸ List.mem_cons_self _ _
          · exact List.mem_cons_of_mem _ (h3 p hp)
        · intro p
          rw [h4 p]
          by_cases hpn : p ∈ news
          · simp [hpn, List.mem_cons_of_mem _ hpn]
          · by_cases hpb : p = nb
            · subst hpb
              simp [hpn, aget_aset_self]
            · rw [aget_aset_ne _ _ (fun h => hpb h.symm)]
              simp [hpn, hpb]
        · intro p hp
          rcases List.mem_cons.mp hp with hpa | hp
          · subst hpa
            simpa using hv
          · exact aget_eq_none_aset (h5 p hp)
        · intro x hx
          rcases List.mem_cons.mp hx with hxa | hx
          · subst hxa
            rw [h4 x]
            by_cases hn : x ∈ news
            · simp [hn]
            · simp [hn, aget_aset_self]
          · exact h6 x hx

theorem pairwise_of_all {α : Type} {R : α → α → Prop} :
    ∀ {l : List α}, (∀ a ∈ l, ∀ b ∈ l, R a b) → l.Pairwise R := by
  intro l
  induction l with
  | nil => intro; exact List.Pairwise.nil
  | cons a t ih =>
      intro h
      refine List.Pairwise.cons (fun b hb => h a (List.mem_cons_self _ _) b
        (List.mem_cons_of_mem _ hb)) (ih ?_)
      intro x hx y hy
      exact h x (List.mem_cons_of_mem _ hx) y (List.mem_cons_of_mem _ hy)

/-- One BFS dequeue preserves the invariant: the popped cell `cur` becomes
processed, its fresh neighbours join at depth `d cur + 1`. -/
theorem bfs_inv_step {g : Grid} {s cur : Pos} {qrest : List Pos} {vis : Visited}
    {d : Pos → ℕ} (inv : BfsInv g s (cur :: qrest) vis d)
    {news : List Pos} {vis' : Visited}
    (h2 : news.Nodup) (h3 : ∀ p ∈ news, p ∈ baseNeighbors g cur)
    (h4 : ∀ p, aget vis' p = if p ∈ news then some (some cur) else aget vis p)
    (h5 : ∀ p ∈ news, aget vis p = none)
    (h6 : ∀ nb ∈ baseNeighbors g cur, (aget vis' nb).isSome) :
    BfsInv g s (qrest ++ news) vis'
      (fun p => if (aget vis p).isSome then d p else d cur + 1) := by
  have hcurvis : (aget vis cur).isSome := inv.qdom cur (List.mem_cons_self _ _)
  have hnotnews : ∀ p, (aget vis p).isSome → p ∉ news := by
    intro p hp hcon
    rw [h5 p hcon] at hp
    cases hp
  have hvis'_of_old : ∀ p, (aget vis p).isSome → aget vis' p = aget vis p := by
    intro p hp
    rw [h4 p, if_neg (hnotnews p hp)]
  have hqrest_vis : ∀ p ∈ qrest, (aget vis p).isSome :=
    fun p hp => inv.qdom p (List.mem_cons_of_mem _ hp)
  have hhead : ∀ b ∈ qrest, d cur ≤ d b := (List.pairwise_cons.mp inv.qsorted).1
  have hsorted_rest : qrest.Pairwise (fun a b => d a ≤ d b) :=
    (List.pairwise_cons.mp inv.qsorted).2
  have hvisdepth : ∀ u, (aget vis u).isSome → d u ≤ d cur + 1 := by
    intro u hu
    by_cases huq : u ∈ cur :: qrest
    · exact inv.qband u huq cur (List.mem_cons_self _ _)
    · exact le_trans (inv.proc_lo u hu huq cur (List.mem_cons_self _ _)) (by omega)
  refine ⟨?_, ?_, ?_, ?_, ?_, ?_, ?_, ?_, ?_, ?_⟩
  · -- start_vis
    rw [hvis'_of_old s (by rw [inv.start_vis]; rfl)]
    exact inv.start_vis
  · -- start_d
    simp only [inv.start_vis, Option.isSome_some, if_pos]
    exact inv.start_d
  · -- none_start
    intro p hp
    rw [h4 p] at hp
    by_cases hn : p ∈ news
    · rw [if_pos hn] at hp
      cases hp
    · rw [if_neg hn] at hp
      exact inv.none_start p hp
  · -- parent
    intro p u hp
    rw [h4 p] at hp
    by_cases hn : p ∈ news
    · rw [if_pos hn] at hp
      injection hp with hp
      injection hp with hp
      subst hp
      refine ⟨h3 p hn, ?_, ?_⟩
      · rw [hvis'_of_old cur hcurvis]
        exact hcurvis
      · simp only [h5 p hn, Option.isSome_none, Bool.false_eq_true, if_neg, ite_false,
          hcurvis, if_pos]
    · rw [if_neg hn] at hp
      obtain ⟨ha, hb, hc⟩ := inv.parent p u hp
      have hpvis : (aget vis p).isSome := by rw [hp]; rfl
      refine ⟨ha, ?_, ?_⟩
      · rw [hvis'_of_old u hb]
        exact hb
      · simp only [hpvis, if_pos, hb, hc]
  · -- qdom
    intro p hp
    rcases List.mem_append.mp hp with hp | hp
    · rw [hvis'_of_old p (hqrest_vis p hp)]
      exact hqrest_vis p hp
    · rw [h4 p, if_pos hp]
      rfl
  · -- qsorted
    rw [List.pairwise_append]
    refine ⟨?_, ?_, ?_⟩
    · refine hsorted_rest.imp_of_mem ?_
      intro a b ha hb hab
      simpa only [hqrest_vis a ha, hqrest_vis b hb, if_pos] using hab
    · refine pairwise_of_all ?_
      intro a ha b hb
      simp only [h5 a ha, h5 b hb, Option.isSome_none, Bool.false_eq_true, if_neg,
        ite_false]
      omega
    · intro a ha b hb
      have h1 := inv.qband a (List.mem_cons_of_mem _ ha) cur (List.mem_cons_self _ _)
      simp only [hqrest_vis a ha, if_pos, h5 b hb, Option.isSome_none,
        Bool.false_eq_true, if_neg, ite_false]
      exact h1
  · -- qband
    intro a ha b hb
    rcases List.mem_append.mp ha with ha | ha <;> rcases List.mem_append.mp hb with hb | hb
    · have := inv.qband a (List.mem_cons_of_mem _ ha) b (List.mem_cons_of_mem _ hb)
      simpa only [hqrest_vis a ha, hqrest_vis b hb, if_pos] using this
    · have := inv.qband a (List.mem_cons_of_mem _ ha) cur (List.mem_cons_self _ _)
      simp only [hqrest_vis a ha, if_pos, h5 b hb, Option.isSome_none,
        Bool.false_eq_true, if_neg, ite_false]
      omega
    · have := hhead b hb
      simp only [hqrest_vis b hb, if_pos, h5 a ha, Option.isSome_none,
        Bool.false_eq_true, if_neg, ite_false]
      omega
    · simp only [h5 a ha, h5 b hb, Option.isSome_none, Bool.false_eq_true, if_neg,
        ite_false]
      omega
  · -- qnodup
    rw [List.nodup_append]
    refine ⟨inv.qnodup.of_cons, h2, ?_⟩
    intro p hp hpn
    exact hnotnews p (hqrest_vis p hp) hpn
  · -- proc_lo
    intro v hv hvq
    have hvq1 : v ∉ qrest := fun hc => hvq (List.mem_append.mpr (Or.inl hc))
    have hvq2 : v ∉ news := fun hc => hvq (List.mem_append.mpr (Or.inr hc))
    rw [h4 v, if_neg hvq2] at hv
    intro b hb
    rcases List.mem_append.mp hb with hb | hb
    · by_cases hvc : v = cur
      · subst hvc
        simpa only [hcurvis, if_pos, hqrest_vis b hb] using hhead b hb
      · have hvold : v ∉ cur :: qrest := by
          intro hc
          rcases List.mem_cons.mp hc with hc | hc
          · exact hvc hc
          · exact hvq1 hc
        have := inv.proc_lo v hv hvold b (List.mem_cons_of_mem _ hb)
        simpa only [hv, if_pos, hqrest_vis b hb] using this
    · by_cases hvc : v = cur
      · subst hvc
        simp only [hcurvis, if_pos, h5 b hb, Option.isSome_none, Bool.false_eq_true,
          if_neg, ite_false]
        omega
      · have hvold : v ∉ cur :: qrest := by
          intro hc
          rcases List.mem_cons.mp hc with hc | hc
          · exact hvc hc
          · exact hvq1 hc
        have := inv.proc_lo v hv hvold cur (List.mem_cons_self _ _)
        simp only [hv, if_pos, h5 b hb, Option.isSome_none, Bool.false_eq_true,
          if_neg, ite_false]
        omega
  · -- proc_relax
    intro v hv hvq u hu
    have hvq2 : v ∉ news := fun hc => hvq (List.mem_append.mpr (Or.inr hc))
    rw [h4 v, if_neg hvq2] at hv
    by_cases hvc : v = cur
    · subst hvc
      refine ⟨h6 u hu, ?_⟩
      by_cases hun : u ∈ news
      · simp only [h5 u hun, Option.isSome_none, Bool.false_eq_true, if_neg,
          ite_false, hv, if_pos]
        omega
      · have huvis : (aget vis u).isSome := by
          have := h6 u hu
          rw [h4 u, if_neg hun] at this
          exact this
        simp only [huvis, if_pos, hv]
        exact hvisdepth u huvis
    · have hvold : v ∉ cur :: qrest := by
        intro hc
        rcases List.mem_cons.mp hc with hc | hc
        · exact hvc hc
        · exact hvq (List.mem_append.mpr (Or.inl hc))
      obtain ⟨huvis, hud⟩ := inv.proc_relax v hv hvold u hu
      refine ⟨?_, ?_⟩
      · rw [hvis'_of_old u huvis]
        exact huvis
      · simp only [huvis, if_pos, hv]
        exact hud

/-- Partial correctness of the BFS loop: any returned path has at most as
many edges as any passable path from `s` to `e`. -/
theorem bfsLoop_min {g : Grid} {s e : Pos} :
    ∀ (fuel : ℕ) (queue : List Pos) (vis : Visited) (d : Pos → ℕ) (p : List Pos),
      BfsInv g s queue vis d →
      bfsLoop g e fuel queue vis = some (some p) →
      ∀ (Q : List Pos), Q.Chain' (fun a b => b ∈ baseNeighbors g a) →
        Q.head? = some s → Q.getLast? = some e →
        p.length - 1 ≤ Q.length - 1 := by
  intro fuel
  induction fuel with
  | zero =>
      intro queue vis d p _ hrun
      exact absurd hrun (by simp [bfsLoop])
  | succ fuel ih =>
      intro queue vis d p inv hrun Q hQc hQh hQl
      match queue, inv with
      | [], _ =>
          simp only [bfsLoop, Option.some.injEq] at hrun
          cases hrun
      | cur :: qrest, inv =>
          simp only [bfsLoop] at hrun
          by_cases hce : cur = e
          · rw [if_pos hce] at hrun
            subst hce
            cases hrec : reconstructPath vis (vis.length + 1) cur with
            | none => rw [hrec] at hrun; cases hrun
            | some chain =>
                rw [hrec] at hrun
                simp only [Option.some.injEq] at hrun
                subst hrun
                have hlen := reconstruct_length inv.none_start inv.start_d
                  (fun a u hau => ⟨(inv.parent a u hau).2.1, (inv.parent a u hau).2.2⟩)
                  (vis.length + 1) cur chain hrec
                match Q, hQh with
                | q0 :: rest, hQh =>
                    simp only [List.head?_cons, Option.some.injEq] at hQh
                    subst hQh
                    have hwalk := bfs_walkdown inv.proc_relax rest q0 0 cur hQc hQl
                      (by rw [inv.start_vis]; rfl) (le_of_eq inv.start_d)
                    have hde : d cur ≤ rest.length := by
                      rcases hwalk with h | h
                      · omega
                      · obtain ⟨w, hw, hwd⟩ := h
                        rcases List.mem_cons.mp hw with hwc | hwc
                        · subst hwc
                          omega
                        · have := (List.pairwise_cons.mp inv.qsorted).1 w hwc
                          omega
                    simp only [List.length_reverse, hlen, List.length_cons]
                    omega
          · rw [if_neg hce] at hrun
            obtain ⟨news, e1, e2, e3, e4, e5, e6⟩ :=
              bfs_fold_effect cur (baseNeighbors g cur) qrest vis
            rw [e1] at hrun
            exact ih _ _ _ p (bfs_inv_step inv e2 e3 e4 e5 e6) hrun Q hQc hQh hQl

/-- C2: whenever `PathFinder.bfs` returns a path, its edge count (length
minus one) is at most the edge count of every passable path of the base
`Maze` between the declared start and end.  (Cell accesses outside a row are
treated as invalid positions; on the rectangular grids the class documents,
this is exactly Python's behaviour.) -/
theorem bfs_returns_fewest_edges (g : Grid) (fuel : ℕ) (s e : Pos) (p Q : List Pos)
    (hs : getStartPosition g = some s) (he : getEndPosition g = some e)
    (hrun : bfs g fuel = some (some p))
    (hQ : ValidBPath g Q) (hQh : Q.head? = some s) (hQl : Q.getLast? = some e) :
    p.length - 1 ≤ Q.length - 1 := by
  unfold bfs at hrun
  rw [hs, he] at hrun
  have hstart : aget ([(s, none)] : Visited) s = some none := by
    simp [aget]
  have hkey : ∀ v : Pos, (aget ([(s, none)] : Visited) v).isSome → v = s := by
    intro v hv
    by_cases h : s = v
    · exact h.symm
    · rw [show aget ([(s, none)] : Visited) v = none by simp [aget, h]] at hv
      cases hv
  refine bfsLoop_min fuel [s] [(s, none)] (fun _ => 0) p ⟨hstart, rfl, ?_, ?_, ?_, ?_,
    ?_, ?_, ?_, ?_⟩ hrun Q hQ.2 hQh hQl
  · intro a ha
    exact hkey a (by rw [ha]; rfl)
  · intro a u ha
    have := hkey a (by rw [ha]; rfl)
    subst this
    rw [hstart] at ha
    cases ha
  · intro a ha
    rcases List.mem_singleton.mp ha with rfl
    rw [hstart]
    rfl
  · exact List.pairwise_singleton _ _
  · intro a ha b hb
    omega
  · exact List.nodup_singleton _
  · intro v hv hvq b hb
    exact absurd (hkey v hv ▸ List.mem_singleton.mpr rfl) hvq
  · intro v hv hvq
    exact absurd (hkey v hv ▸ List.mem_singleton.mpr rfl) hvq

/-- Executable chain check used to decide the path predicates. -/
def chainB {α : Type} (R : α → α → Bool) : List α → Bool
  | [] => true
  | [_] => true
  | a :: b :: t => R a b && chainB R (b :: t)

theorem chainB_iff_chain {α : Type} (R : α → α → Bool) :
    ∀ l : List α, chainB R l = true ↔ l.Chain' (fun a b => R a b = true) := by
  intro l
  match l with
  | [] => simp [chainB]
  | [a] => simp [chainB]
  | a :: b :: t =>
      rw [List.chain'_cons, chainB, Bool.and_eq_true, chainB_iff_chain R (b :: t)]

instance (g : Grid) (q : List Pos) : Decidable (ValidBPath g q) :=
  decidable_of_iff
    (q ≠ [] ∧ chainB (fun a b => decide (b ∈ baseNeighbors g a)) q = true) (by
      rw [chainB_iff_chain]
      unfold ValidBPath
      constructor
      · rintro ⟨h1, h2⟩
        exact ⟨h1, h2.imp fun a b h => of_decide_eq_true h⟩
      · rintro ⟨h1, h2⟩
        exact ⟨h1, h2.imp fun a b h => decide_eq_true h⟩)

instance (g : Grid) (q : List Pos) : Decidable (ValidTPath g q) :=
  decidable_of_iff
    (q ≠ [] ∧ chainB (fun a b => decide (b ∈ terrainNeighbors g a)) q = true) (by
      rw [chainB_iff_chain]
      unfold ValidTPath
      constructor
      · rintro ⟨h1, h2⟩
        exact ⟨h1, h2.imp fun a b h => of_decide_eq_true h⟩
      · rintro ⟨h1, h2⟩
        exact ⟨h1, h2.imp fun a b h => decide_eq_true h⟩)

/-- The grid of spec scenario A. -/
def bfsWitnessGrid : Grid :=
  [ [PyCell.str "1", PyCell.int 0, PyCell.int 1],
    [PyCell.int 0, PyCell.int 0, PyCell.str "F"],
    [PyCell.int 1, PyCell.int 1, PyCell.int 1] ]

/-- Witness for C2 on scenario A: BFS returns the unique 3-edge path, which
is no longer than the alternative passable path offered. -/
theorem bfs_returns_fewest_edges_witness :
    getStartPosition bfsWitnessGrid = some (0, 0) ∧
    bfs bfsWitnessGrid 30 = some (some [(0, 0), (1, 0), (1, 1), (1, 2)]) ∧
    ([(0, 0), (1, 0), (1, 1), (1, 2)] : List Pos).length - 1
      ≤ ([(0, 0), (0, 1), (1, 1), (1, 2)] : List Pos).length - 1 :=
  ⟨by decide, by decide,
   bfs_returns_fewest_edges bfsWitnessGrid 30 (0, 0) (1, 2)
     [(0, 0), (1, 0), (1, 1), (1, 2)] [(0, 0), (0, 1), (1, 1), (1, 2)]
     (by decide) (by decide) (by decide) (by decide) (by decide) (by decide)⟩

/-! ## Claim C1: Dijkstra returns a cheapest path.

Ghost-free invariants over the loop state `(pq, cost_so_far, came_from)`:
every queued entry over-approximates its cell's recorded cost, recorded
costs are non-negative, the parent tree is cost-telescoping, and every
"processed" cell — one whose live entry `(cost_so_far[v], v)` is no longer
queued — has all its out-edges relaxed.  Following any passable path from
the start then yields either a recorded-cost bound on its endpoint or a live
queued witness on the path, which the popped minimum undercuts. -/

theorem cadd_comm (a b : Cost) : a + b = b + a := by
  cases a <;> cases b <;> simp
  ring

theorem wsum_append (g : Grid) (l₁ l₂ : List Pos) :
    wsum g (l₁ ++ l₂) = wsum g l₁ + wsum g l₂ := by
  induction l₁ with
  | nil => simp [wsum, Cost.czero_add]
  | cons a t ih =>
      show wsum g (a :: (t ++ l₂)) = wsum g (a :: t) + wsum g l₂
      rw [wsum, wsum, ih, Cost.cadd_assoc]

theorem wsum_reverse (g : Grid) : ∀ l : List Pos, wsum g l.reverse = wsum g l := by
  intro l
  induction l with
  | nil => rfl
  | cons a t ih =>
      simp only [List.reverse_cons, wsum_append, ih, wsum, Cost.cadd_zero]
      exact cadd_comm _ _

theorem wsum_nonneg {g : Grid} {l : List Pos}
    (h : ∀ x ∈ l, Cost.fin 0 ≤ getTerrainCost g x) : Cost.fin 0 ≤ wsum g l := by
  induction l with
  | nil => exact Cost.cle_refl _
  | cons a t ih =>
      exact Cost.cadd_nonneg (h a (List.mem_cons_self _ _))
        (ih fun x hx => h x (List.mem_cons_of_mem _ hx))

/-- A value looked up in a dict built by folding `aset` over a literal entry
list is one of the literal's values. -/
theorem aget_fold_mem {κ ν : Type} [DecidableEq κ] :
    ∀ (l : List (κ × ν)) (acc : List (κ × ν)) (s : κ) (info : ν),
      aget (l.foldl (fun d e => aset d e.1 e.2) acc) s = some info →
      (s, info) ∈ l ∨ aget acc s = some info := by
  intro l
  induction l with
  | nil => intro acc s info h; exact Or.inr h
  | cons e t ih =>
      intro acc s info h
      simp only [List.foldl_cons] at h
      rcases ih (aset acc e.1 e.2) s info h with h1 | h1
      · exact Or.inl (List.mem_cons_of_mem _ h1)
      · by_cases hk : e.1 = s
        · subst hk
          rw [aget_aset_self] at h1
          injection h1 with h1
          subst h1
          exact Or.inl (List.mem_cons_self _ _)
        · rw [aget_aset_ne _ _ hk] at h1
          exact Or.inr h1

/-- Every passable cell's terrain cost is non-negative (by inspection of the
terrain table: every passable entry costs at least 0.5). -/
theorem passable_cost_nonneg {g : Grid} {x : Pos} (h : isPassableT g x = true) :
    Cost.fin 0 ≤ getTerrainCost g x := by
  simp only [isPassableT, Bool.and_eq_true] at h
  rcases h with ⟨-, h⟩
  simp only [getTerrainCost]
  revert h
  simp only [getTerrainInfo]
  cases hl : terrainLookup (getTerrainType g x) with
  | none => intro h; cases h
  | some info =>
      intro h
      simp only [Option.getD_some] at h ⊢
      have hmem : ∃ s, (s, info) ∈ TERRAIN_TYPES := by
        revert hl
        cases getTerrainType g x with
        | int n => intro hl; cases hl
        | str s =>
            intro hl
            simp only [terrainLookup] at hl
            rcases aget_fold_mem TERRAIN_TYPES [] s info hl with h1 | h1
            · exact ⟨s, h1⟩
            · cases h1
      obtain ⟨s, hs⟩ := hmem
      have hall : ∀ e ∈ TERRAIN_TYPES, e.2.passable = true → Cost.fin 0 ≤ e.2.cost := by
        decide
      exact hall (s, info) hs h

/-- A cell is never one of its own four neighbours. -/
theorem not_self_mem_terrainNeighbors (g : Grid) (p : Pos) :
    p ∉ terrainNeighbors g p := by
  intro h
  rw [terrainNeighbors, List.mem_filter] at h
  have h1 := h.1
  simp only [List.mem_cons, List.mem_singleton, List.not_mem_nil, or_false] at h1
  rcases h1 with h1 | h1 | h1 | h1
  · have h2 : p.1 = p.1 - 1 := congrArg Prod.fst h1
    omega
  · have h2 : p.1 = p.1 + 1 := congrArg Prod.fst h1
    omega
  · have h2 : p.2 = p.2 - 1 := congrArg Prod.snd h1
    omega
  · have h2 : p.2 = p.2 + 1 := congrArg Prod.snd h1
    omega

/-- Along a passable chain every cell after the head has non-negative
terrain cost (each is some cell's passable neighbour). -/
theorem chain_tail_nonneg {g : Grid} :
    ∀ (v : Pos) (rest : List Pos),
      List.Chain' (fun a b => b ∈ terrainNeighbors g a) (v :: rest) →
      ∀ x ∈ rest, Cost.fin 0 ≤ getTerrainCost g x := by
  intro v rest
  induction rest generalizing v with
  | nil => intro _ x hx; cases hx
  | cons u rest ih =>
      intro hchain x hx
      rw [List.chain'_cons] at hchain
      rcases List.mem_cons.mp hx with hxu | hx
      · subst hxu
        have : isPassableT g x = true := by
          have := hchain.1
          simp only [terrainNeighbors, List.mem_filter] at this
          exact this.2
        exact passable_cost_nonneg this
      · exact ih u hchain.2 x hx

theorem cost_lt_irrefl (a : Cost) : ¬ a < a :=
  fun h => (Cost.clt_iff_not_ge.mp h) (Cost.cle_refl a)

theorem cost_trichotomy (a b : Cost) : a < b ∨ a = b ∨ b < a := by
  cases a <;> cases b <;> simp
  exact lt_trichotomy _ _

/-! The Python heap order on `(cost, (row, col))` entries is a strict total
order: irreflexive, transitive, total up to equality. -/

theorem pentryLt_irrefl (x : PQEntry) : pentryLt x x = false := by
  obtain ⟨c, r, q⟩ := x
  simp [pentryLt, cost_lt_irrefl]

theorem pentryLt_trans (x y z : PQEntry) (h₁ : pentryLt x y = true)
    (h₂ : pentryLt y z = true) : pentryLt x z = true := by
  obtain ⟨cx, rx, qx⟩ := x
  obtain ⟨cy, ry, qy⟩ := y
  obtain ⟨cz, rz, qz⟩ := z
  simp only [pentryLt, Bool.or_eq_true, Bool.and_eq_true, decide_eq_true_eq] at h₁ h₂ ⊢
  rcases h₁ with h₁ | ⟨hceq₁, h₁⟩
  · rcases h₂ with h₂ | ⟨hceq₂, h₂⟩
    · exact Or.inl (Cost.clt_of_le_of_lt (Cost.cle_of_lt h₁) h₂)
    · exact Or.inl (by rw [← hceq₂]; exact h₁)
  · rcases h₂ with h₂ | ⟨hceq₂, h₂⟩
    · exact Or.inl (by rw [hceq₁]; exact h₂)
    · refine Or.inr ⟨hceq₁.trans hceq₂, ?_⟩
      rcases h₁ with h₁ | ⟨hre₁, h₁⟩ <;> rcases h₂ with h₂ | ⟨hre₂, h₂⟩
      · exact Or.inl (by omega)
      · exact Or.inl (by omega)
      · exact Or.inl (by omega)
      · exact Or.inr ⟨by omega, by omega⟩

theorem pentryLt_total (x y : PQEntry) :
    pentryLt x y = true ∨ pentryLt y x = true ∨ x = y := by
  obtain ⟨cx, rx, qx⟩ := x
  obtain ⟨cy, ry, qy⟩ := y
  simp only [pentryLt, Bool.or_eq_true, Bool.and_eq_true, decide_eq_true_eq,
    Prod.mk.injEq]
  rcases cost_trichotomy cx cy with h | h | h
  · exact Or.inl (Or.inl h)
  · subst h
    rcases lt_trichotomy rx ry with hr | hr | hr
    · exact Or.inl (Or.inr ⟨rfl, Or.inl hr⟩)
    · subst hr
      rcases lt_trichotomy qx qy with hq | hq | hq
      · exact Or.inl (Or.inr ⟨rfl, Or.inr ⟨rfl, hq⟩⟩)
      · subst hq
        exact Or.inr (Or.inr ⟨rfl, rfl, rfl⟩)
      · exact Or.inr (Or.inl (Or.inr ⟨rfl, Or.inr ⟨rfl, hq⟩⟩))
    · exact Or.inr (Or.inl (Or.inr ⟨rfl, Or.inl hr⟩))
  · exact Or.inr (Or.inl (Or.inl h))

theorem pentryLt_weak (x y z : PQEntry) (h₁ : pentryLt y x = false)
    (h₂ : pentryLt y z = true) : pentryLt x z = true := by
  rcases pentryLt_total x y with h | h | h
  · exact pentryLt_trans x y z h h₂
  · rw [h₁] at h
    cases h
  · exact h ▸ h₂

theorem terrainNeighbors_nodup (g : Grid) (p : Pos) :
    (terrainNeighbors g p).Nodup := by
  apply List.Nodup.filter
  refine List.nodup_cons.mpr ⟨?_, List.nodup_cons.mpr ⟨?_,
    List.nodup_cons.mpr ⟨?_, List.nodup_singleton _⟩⟩⟩
  · intro h
    simp only [List.mem_cons, List.mem_singleton, List.not_mem_nil, or_false] at h
    rcases h with h | h | h
    · have h2 : p.1 - 1 = p.1 + 1 := congrArg Prod.fst h
      omega
    · have h2 : p.1 - 1 = p.1 := congrArg Prod.fst h
      omega
    · have h2 : p.1 - 1 = p.1 := congrArg Prod.fst h
      omega
  · intro h
    simp only [List.mem_cons, List.mem_singleton, List.not_mem_nil, or_false] at h
    rcases h with h | h
    · have h2 : p.1 + 1 = p.1 := congrArg Prod.fst h
      omega
    · have h2 : p.1 + 1 = p.1 := congrArg Prod.fst h
      omega
  · intro h
    simp only [List.mem_singleton] at h
    have h2 : p.2 - 1 = p.2 + 1 := congrArg Prod.snd h
    omega

theorem drop_one_reverse {α : Type} (chain : List α) :
    chain.reverse.drop 1 = chain.dropLast.reverse := by
  have h : ∀ m : List α, m.drop 1 = m.reverse.dropLast.reverse := by
    intro m
    cases m with
    | nil => rfl
    | cons x t => simp [List.reverse_cons, List.dropLast_concat]
  rw [h chain.reverse, List.reverse_reverse]

theorem aget_singleton {κ ν : Type} [DecidableEq κ] (k key : κ) (v : ν) :
    aget [(k, v)] key = if k = key then some v else none := by
  simp [aget]

/-- The Dijkstra loop invariant over `(priority_queue, cost_so_far,
came_from)`.  A cell `v` counts as processed when its live entry
`(cost_so_far[v], v)` is no longer queued; the code only ever requeues a
cell together with an improved recorded cost, so every processed cell has
all its out-edges relaxed. -/
structure DijInv (g : Grid) (s : Pos) (pq : List PQEntry) (csf : CostMap)
    (cf : Visited) : Prop where
  ub : ∀ x ∈ pq, ∃ cv, aget csf x.2 = some cv ∧ cv ≤ x.1
  nn_pq : ∀ x ∈ pq, Cost.fin 0 ≤ x.1
  nn_csf : ∀ v cv, aget csf v = some cv → Cost.fin 0 ≤ cv
  start_csf : ∃ cs, aget csf s = some cs ∧ cs ≤ Cost.fin 0
  cf_dom : ∀ v o, aget cf v = some o → ∃ cv, aget csf v = some cv
  cf_edge : ∀ v u, aget cf v = some (some u) →
    ∃ cu cv, aget csf u = some cu ∧ aget csf v = some cv ∧
      cu + getTerrainCost g v ≤ cv
  proc_relax : ∀ v cv, aget csf v = some cv → (cv, v) ∉ pq →
    ∀ u ∈ terrainNeighbors g v, ∃ cu, aget csf u = some cu ∧
      cu ≤ cv + getTerrainCost g u

/-- Walking the parent tree from any recorded cell accumulates at most its
recorded cost: the parent edges telescope. -/
theorem dij_reconstruct_cost {g : Grid} {csf : CostMap} {cf : Visited}
    (hnn : ∀ v cv, aget csf v = some cv → Cost.fin 0 ≤ cv)
    (hedge : ∀ v u, aget cf v = some (some u) →
      ∃ cu cv, aget csf u = some cu ∧ aget csf v = some cv ∧
        cu + getTerrainCost g v ≤ cv) :
    ∀ (fuelR : ℕ) (cur : Pos) (chain : List Pos) (ccur : Cost),
      reconstructPath cf fuelR cur = some chain →
      aget csf cur = some ccur →
      chain ≠ [] ∧ wsum g chain.dropLast ≤ ccur := by
  intro fuelR
  induction fuelR with
  | zero => intro cur chain ccur h _; exact absurd h (by simp [reconstructPath])
  | succ fuelR ih =>
      intro cur chain ccur h hcur
      simp only [reconstructPath] at h
      cases hv : aget cf cur with
      | none => rw [hv] at h; exact absurd h (by simp)
      | some o =>
          rw [hv] at h
          cases o with
          | none =>
              simp only [Option.some.injEq] at h
              subst h
              exact ⟨by simp, hnn cur ccur hcur⟩
          | some prev =>
              simp only [] at h
              cases hr : reconstructPath cf fuelR prev with
              | none => rw [hr] at h; exact absurd h (by simp)
              | some chain0 =>
                  rw [hr] at h
                  simp only [Option.map_some', Option.some.injEq] at h
                  subst h
                  obtain ⟨cu, cv, hcu, hcv2, htel⟩ := hedge cur prev hv
                  rw [hcur] at hcv2
                  injection hcv2 with hcv2
                  obtain ⟨hne0, hb0⟩ := ih prev chain0 cu hr hcu
                  refine ⟨by simp, ?_⟩
                  have hdl : (cur :: chain0).dropLast = cur :: chain0.dropLast := by
                    cases chain0 with
                    | nil => exact absurd rfl hne0
                    | cons a t => rfl
                  rw [hdl]
                  simp only [wsum]
                  have h1 : getTerrainCost g cur + wsum g chain0.dropLast ≤
                      getTerrainCost g cur + cu := Cost.cadd_le_cadd_left _ hb0
                  have h2 : getTerrainCost g cur + cu ≤ ccur := by
                    rw [cadd_comm, hcv2]
                    exact htel
                  exact Cost.cle_trans h1 h2

/-- Walk-down: following a passable chain from a recorded cell of cost at
most `k` either bounds the endpoint's recorded cost by `k` plus the chain's
remaining weight, or runs into a live queued entry within that bound. -/
theorem dij_walkdown {g : Grid} {pq : List PQEntry} {csf : CostMap}
    (hrelax : ∀ v cv, aget csf v = some cv → (cv, v) ∉ pq →
      ∀ u ∈ terrainNeighbors g v, ∃ cu, aget csf u = some cu ∧
        cu ≤ cv + getTerrainCost g u) :
    ∀ (rest : List Pos) (v : Pos) (k : Cost) (z : Pos),
      List.Chain' (fun a b => b ∈ terrainNeighbors g a) (v :: rest) →
      (v :: rest).getLast? = some z →
      (∃ cv, aget csf v = some cv ∧ cv ≤ k) →
      (∃ cz, aget csf z = some cz ∧ cz ≤ k + wsum g rest) ∨
      (∃ x cx, aget csf x = some cx ∧ (cx, x) ∈ pq ∧ cx ≤ k + wsum g rest) := by
  intro rest
  induction rest with
  | nil =>
      intro v k z _ hlast hv
      simp only [List.getLast?_singleton, Option.some.injEq] at hlast
      subst hlast
      obtain ⟨cv, hcv, hk⟩ := hv
      refine Or.inl ⟨cv, hcv, ?_⟩
      simp only [wsum, Cost.cadd_zero]
      exact hk
  | cons u rest ih =>
      intro v k z hchain hlast hv
      obtain ⟨cv, hcv, hk⟩ := hv
      have hwnn : Cost.fin 0 ≤ wsum g (u :: rest) :=
        wsum_nonneg (chain_tail_nonneg v (u :: rest) hchain)
      rw [List.chain'_cons] at hchain
      by_cases hq : (cv, v) ∈ pq
      · exact Or.inr ⟨v, cv, hcv, hq,
          Cost.cle_trans hk (Cost.cle_add_of_nonneg_right hwnn)⟩
      · obtain ⟨cu, hcu, hle⟩ := hrelax v cv hcv hq u hchain.1
        have hlast2 : (u :: rest).getLast? = some z := by
          rwa [List.getLast?_cons_cons] at hlast
        have hcu_k : cu ≤ k + getTerrainCost g u :=
          Cost.cle_trans hle (Cost.cadd_le_cadd_right _ hk)
        rcases ih u (k + getTerrainCost g u) z hchain.2 hlast2 ⟨cu, hcu, hcu_k⟩
          with h | h
        · obtain ⟨cz, hcz, hzb⟩ := h
          refine Or.inl ⟨cz, hcz, ?_⟩
          simp only [wsum]
          rw [← Cost.cadd_assoc]
          exact hzb
        · obtain ⟨x, cx, hcx, hmem, hxb⟩ := h
          refine Or.inr ⟨x, cx, hcx, hmem, ?_⟩
          simp only [wsum]
          rw [← Cost.cadd_assoc]
          exact hxb

/-- Effect of the relaxation loop over the popped cell's neighbours: old
queue entries survive, each new entry carries cost `c +` the entered cell's
terrain cost and matches the final recorded cost of its cell, each map
binding is either untouched or improved-and-reparented, and afterwards
every neighbour is relaxed. -/
theorem dij_fold_effect (g : Grid) (c : Cost) (p : Pos) :
    ∀ (nbs : List Pos), nbs.Nodup →
    ∀ (pq0 : List PQEntry) (csf0 : CostMap) (cf0 : Visited)
      (out : List PQEntry × CostMap × Visited),
      out = nbs.foldl (relaxStep g c p) (pq0, csf0, cf0) →
      (∀ x ∈ pq0, x ∈ out.1) ∧
      (∀ x ∈ out.1, x ∈ pq0 ∨ (x.2 ∈ nbs ∧ x.1 = c + getTerrainCost g x.2 ∧
        aget out.2.1 x.2 = some x.1)) ∧
      (∀ v, (aget out.2.1 v = aget csf0 v ∧ aget out.2.2 v = aget cf0 v) ∨
        (v ∈ nbs ∧ aget out.2.1 v = some (c + getTerrainCost g v) ∧
          aget out.2.2 v = some (some p) ∧
          (∀ old, aget csf0 v = some old → c + getTerrainCost g v < old) ∧
          (c + getTerrainCost g v, v) ∈ out.1)) ∧
      (∀ v ∈ nbs, ∃ cv, aget out.2.1 v = some cv ∧
        cv ≤ c + getTerrainCost g v) := by
  intro nbs
  induction nbs with
  | nil =>
      intro _ pq0 csf0 cf0 out hout
      simp only [List.foldl_nil] at hout
      subst hout
      exact ⟨fun x hx => hx, fun x hx => Or.inl hx, fun v => Or.inl ⟨rfl, rfl⟩,
        fun v hv => absurd hv (List.not_mem_nil v)⟩
  | cons nb t ih =>
      intro hnd pq0 csf0 cf0 out hout
      obtain ⟨hnb_t, hnd_t⟩ := List.nodup_cons.mp hnd
      rw [List.foldl_cons] at hout
      by_cases himpP : ∀ old, aget csf0 nb = some old →
          c + getTerrainCost g nb < old
      · -- the improve test passes and the neighbour is (re)recorded
        have hA : relaxStep g c p (pq0, csf0, cf0) nb =
            (pq0 ++ [(c + getTerrainCost g nb, nb)],
             aset csf0 nb (c + getTerrainCost g nb), aset cf0 nb (some p)) := by
          cases hget : aget csf0 nb with
          | none => simp [relaxStep, hget]
          | some old => simp [relaxStep, hget, himpP old hget]
        rw [hA] at hout
        obtain ⟨I0, I1, I2, I5⟩ := ih hnd_t
          (pq0 ++ [(c + getTerrainCost g nb, nb)])
          (aset csf0 nb (c + getTerrainCost g nb)) (aset cf0 nb (some p)) out hout
        have hnb_final : aget out.2.1 nb = some (c + getTerrainCost g nb) ∧
            aget out.2.2 nb = some (some p) := by
          rcases I2 nb with ⟨h1, h2⟩ | ⟨hmem, _⟩
          · exact ⟨h1.trans (aget_aset_self _ _ _), h2.trans (aget_aset_self _ _ _)⟩
          · exact absurd hmem hnb_t
        refine ⟨?_, ?_, ?_, ?_⟩
        · intro x hx
          exact I0 x (List.mem_append.mpr (Or.inl hx))
        · intro x hx
          rcases I1 x hx with hx0 | ⟨hxm, hx1, hx2⟩
          · rcases List.mem_append.mp hx0 with hx0 | hx0
            · exact Or.inl hx0
            · rcases List.mem_singleton.mp hx0 with rfl
              exact Or.inr ⟨List.mem_cons_self _ _, rfl, hnb_final.1⟩
          · exact Or.inr ⟨List.mem_cons_of_mem _ hxm, hx1, hx2⟩
        · intro v
          by_cases hvnb : v = nb
          · subst hvnb
            refine Or.inr ⟨List.mem_cons_self _ _, hnb_final.1, hnb_final.2,
              himpP, ?_⟩
            exact I0 _ (List.mem_append.mpr (Or.inr (List.mem_singleton.mpr rfl)))
          · rcases I2 v with ⟨h1, h2⟩ | ⟨hmem, h1, h2, himp2, hin⟩
            · refine Or.inl ⟨?_, ?_⟩
              · rw [h1, aget_aset_ne _ _ (fun h => hvnb h.symm)]
              · rw [h2, aget_aset_ne _ _ (fun h => hvnb h.symm)]
            · refine Or.inr ⟨List.mem_cons_of_mem _ hmem, h1, h2, ?_, hin⟩
              intro old hold
              refine himp2 old ?_
              rw [aget_aset_ne _ _ (fun h => hvnb h.symm)]
              exact hold
        · intro v hv
          rcases List.mem_cons.mp hv with hva | hv
          · subst hva
            exact ⟨c + getTerrainCost g v, hnb_final.1, Cost.cle_refl _⟩
          · exact I5 v hv
      · -- the improve test fails: the state is unchanged at this neighbour
        push_neg at himpP
        obtain ⟨old, hget, hnlt⟩ := himpP
        have hA : relaxStep g c p (pq0, csf0, cf0) nb = (pq0, csf0, cf0) := by
          simp [relaxStep, hget, hnlt]
        rw [hA] at hout
        obtain ⟨I0, I1, I2, I5⟩ := ih hnd_t pq0 csf0 cf0 out hout
        have hout_nb : aget out.2.1 nb = some old := by
          rcases I2 nb with ⟨h1, _⟩ | ⟨hmem, _⟩
          · exact h1.trans hget
          · exact absurd hmem hnb_t
        refine ⟨I0, ?_, ?_, ?_⟩
        · intro x hx
          rcases I1 x hx with hx0 | ⟨hxm, hx1, hx2⟩
          · exact Or.inl hx0
          · exact Or.inr ⟨List.mem_cons_of_mem _ hxm, hx1, hx2⟩
        · intro v
          rcases I2 v with h | ⟨hmem, h1, h2, himp2, hin⟩
          · exact Or.inl h
          · exact Or.inr ⟨List.mem_cons_of_mem _ hmem, h1, h2, himp2, hin⟩
        · intro v hv
          rcases List.mem_cons.mp hv with hva | hv
          · subst hva
            refine ⟨old, hout_nb, ?_⟩
            by_contra hn
            exact hnlt (Cost.clt_iff_not_ge.mpr hn)
          · exact I5 v hv

/-- Popping a stale entry (recorded cost already better) only shrinks the
queue and keeps the invariant. -/
theorem dij_inv_stale {g : Grid} {s : Pos} {pq : List PQEntry} {csf : CostMap}
    {cf : Visited} {c : Cost} {w : Pos} {rest : List PQEntry} {cw : Cost}
    (inv : DijInv g s pq csf cf)
    (hpop : popMin pentryLt pq = some ((c, w), rest))
    (hcw : aget csf w = some cw) (hlt : cw < c) :
    DijInv g s rest csf cf := by
  have hrest : rest = removeFirst pq (c, w) := popMin_rest hpop
  have hrest_sub : ∀ x ∈ rest, x ∈ pq := fun x hx => removeFirst_subset (hrest ▸ hx)
  have hmem_rest : ∀ x ∈ pq, x ∉ rest → x = (c, w) := by
    intro x hx hnx
    by_contra hne
    exact hnx (hrest ▸ removeFirst_mem_of_ne hx hne)
  refine ⟨fun x hx => inv.ub x (hrest_sub x hx),
    fun x hx => inv.nn_pq x (hrest_sub x hx), inv.nn_csf, inv.start_csf,
    inv.cf_dom, inv.cf_edge, ?_⟩
  intro v cv hv hnrest u hu
  by_cases hpq : (cv, v) ∈ pq
  · have heq := hmem_rest (cv, v) hpq hnrest
    have hveq : v = w := congrArg Prod.snd heq
    have hceq : cv = c := congrArg Prod.fst heq
    subst hveq
    rw [hcw] at hv
    injection hv with hv
    rw [hv, hceq] at hlt
    exact absurd hlt (cost_lt_irrefl c)
  · exact inv.proc_relax v cv hv hpq u hu

/-- Popping a fresh minimal entry and relaxing its neighbours keeps the
invariant. -/
theorem dij_inv_step {g : Grid} {s : Pos} {pq : List PQEntry} {csf : CostMap}
    {cf : Visited} {c : Cost} {w : Pos} {rest : List PQEntry}
    (inv : DijInv g s pq csf cf)
    (hpop : popMin pentryLt pq = some ((c, w), rest))
    (hcw : aget csf w = some c)
    (out : List PQEntry × CostMap × Visited)
    (hout : out = (terrainNeighbors g w).foldl (relaxStep g c w) (rest, csf, cf)) :
    DijInv g s out.1 out.2.1 out.2.2 := by
  have hrest : rest = removeFirst pq (c, w) := popMin_rest hpop
  have hrest_sub : ∀ x ∈ rest, x ∈ pq := fun x hx => removeFirst_subset (hrest ▸ hx)
  have hmem_rest : ∀ x ∈ pq, x ∉ rest → x = (c, w) := by
    intro x hx hnx
    by_contra hne
    exact hnx (hrest ▸ removeFirst_mem_of_ne hx hne)
  have hwpq : (c, w) ∈ pq := popMin_mem hpop
  have hcnn : Cost.fin 0 ≤ c := inv.nn_pq (c, w) hwpq
  have hnb_nn : ∀ v ∈ terrainNeighbors g w, Cost.fin 0 ≤ getTerrainCost g v := by
    intro v hv
    refine passable_cost_nonneg ?_
    simp only [terrainNeighbors, List.mem_filter] at hv
    exact hv.2
  have hw_nb : w ∉ terrainNeighbors g w := not_self_mem_terrainNeighbors g w
  obtain ⟨E0, E1, E2, E5⟩ := dij_fold_effect g c w (terrainNeighbors g w)
    (terrainNeighbors_nodup g w) rest csf cf out hout
  have hmono : ∀ v cv, aget csf v = some cv →
      ∃ cv', aget out.2.1 v = some cv' ∧ cv' ≤ cv := by
    intro v cv hv
    rcases E2 v with ⟨h1, _⟩ | ⟨_, h1, _, himp, _⟩
    · exact ⟨cv, h1.trans hv, Cost.cle_refl _⟩
    · exact ⟨c + getTerrainCost g v, h1, Cost.cle_of_lt (himp cv hv)⟩
  have hout_w : aget out.2.1 w = some c := by
    rcases E2 w with ⟨h1, _⟩ | ⟨hmem, _⟩
    · exact h1.trans hcw
    · exact absurd hmem hw_nb
  refine ⟨?_, ?_, ?_, ?_, ?_, ?_, ?_⟩
  · -- ub
    intro x hx
    rcases E1 x hx with hx0 | ⟨hxn, hx1, hx2⟩
    · obtain ⟨cv, hcv, hle⟩ := inv.ub x (hrest_sub x hx0)
      obtain ⟨cv', hcv', hle'⟩ := hmono x.2 cv hcv
      exact ⟨cv', hcv', Cost.cle_trans hle' hle⟩
    · exact ⟨x.1, hx2, Cost.cle_refl _⟩
  · -- nn_pq
    intro x hx
    rcases E1 x hx with hx0 | ⟨hxn, hx1, _⟩
    · exact inv.nn_pq x (hrest_sub x hx0)
    · rw [hx1]
      exact Cost.cadd_nonneg hcnn (hnb_nn x.2 hxn)
  · -- nn_csf
    intro v cv hv
    rcases E2 v with ⟨h1, _⟩ | ⟨hmem, h1, _⟩
    · exact inv.nn_csf v cv (h1.symm.trans hv)
    · rw [h1] at hv
      injection hv with hv
      exact hv ▸ Cost.cadd_nonneg hcnn (hnb_nn v hmem)
  · -- start_csf
    obtain ⟨cs, hcs, hcs0⟩ := inv.start_csf
    rcases E2 s with ⟨h1, _⟩ | ⟨hmem, h1, _, himp, _⟩
    · exact ⟨cs, h1.trans hcs, hcs0⟩
    · have hlt := himp cs hcs
      have hge : Cost.fin 0 ≤ c + getTerrainCost g s :=
        Cost.cadd_nonneg hcnn (hnb_nn s hmem)
      have hcontra : cs ≤ c + getTerrainCost g s := Cost.cle_trans hcs0 hge
      exact absurd hcontra (Cost.clt_iff_not_ge.mp hlt)
  · -- cf_dom
    intro v o hv
    rcases E2 v with ⟨h1, h2⟩ | ⟨hmem, h1, _⟩
    · obtain ⟨cv, hcv⟩ := inv.cf_dom v o (h2.symm.trans hv)
      obtain ⟨cv', hcv', _⟩ := hmono v cv hcv
      exact ⟨cv', hcv'⟩
    · exact ⟨c + getTerrainCost g v, h1⟩
  · -- cf_edge
    intro v u hv
    rcases E2 v with ⟨h1, h2⟩ | ⟨hmem, h1, h2, _, _⟩
    · obtain ⟨cu, cv, hcu, hcv, htel⟩ := inv.cf_edge v u (h2.symm.trans hv)
      obtain ⟨cu', hcu', hcule⟩ := hmono u cu hcu
      refine ⟨cu', cv, hcu', h1.trans hcv, ?_⟩
      exact Cost.cle_trans (Cost.cadd_le_cadd_right _ hcule) htel
    · rw [h2] at hv
      injection hv with hv
      injection hv with hv
      refine ⟨c, c + getTerrainCost g v, ?_, h1, Cost.cle_refl _⟩
      rw [← hv]
      exact hout_w
  · -- proc_relax
    intro v cv hv hnpq u hu
    by_cases hvw : v = w
    · subst hvw
      rw [hout_w] at hv
      injection hv with hv
      subst hv
      exact E5 u hu
    · rcases E2 v with ⟨h1, _⟩ | ⟨hmem, h1, _, _, hin⟩
      · have hcsf_v : aget csf v = some cv := h1.symm.trans hv
        have hnot_pq : (cv, v) ∉ pq := by
          intro hin_pq
          by_cases hin_rest : (cv, v) ∈ rest
          · exact hnpq (E0 _ hin_rest)
          · exact hvw (congrArg Prod.snd (hmem_rest (cv, v) hin_pq hin_rest))
        obtain ⟨cu, hcu, hle⟩ := inv.proc_relax v cv hcsf_v hnot_pq u hu
        obtain ⟨cu', hcu', hcule⟩ := hmono u cu hcu
        exact ⟨cu', hcu', Cost.cle_trans hcule hle⟩
      · rw [h1] at hv
        injection hv with hv
        exact absurd (hv ▸ hin) hnpq

/-- Whatever `dijkstra` returns after its loop costs at most the recorded
cost of the end cell. -/
theorem dij_post_cost {g : Grid} {s e : Pos} {pq : List PQEntry}
    {csf : CostMap} {cf : Visited} {pth : List Pos}
    (inv : DijInv g s pq csf cf)
    (hrun : dijkstraPost cf e = some (some pth)) :
    ∃ ce, aget csf e = some ce ∧ wsum g (pth.drop 1) ≤ ce := by
  unfold dijkstraPost at hrun
  cases hcf : aget cf e with
  | none => rw [hcf] at hrun; cases hrun
  | some o =>
      rw [hcf] at hrun
      cases hrec : reconstructPath cf (cf.length + 1) e with
      | none => rw [hrec] at hrun; cases hrun
      | some chain =>
          rw [hrec] at hrun
          simp only [Option.some.injEq] at hrun
          subst hrun
          obtain ⟨ce, hce⟩ := inv.cf_dom e o hcf
          obtain ⟨hne, hb⟩ := dij_reconstruct_cost inv.nn_csf inv.cf_edge
            (cf.length + 1) e chain ce hrec hce
          refine ⟨ce, hce, ?_⟩
          rw [drop_one_reverse, wsum_reverse]
          exact hb

/-- Partial correctness of the Dijkstra loop: any returned path weighs at
most any passable path from `s` to `e`. -/
theorem dijLoop_min {g : Grid} {s e : Pos} :
    ∀ (fuel : ℕ) (pq : List PQEntry) (csf : CostMap) (cf : Visited)
      (pth : List Pos),
      DijInv g s pq csf cf →
      dijkstraLoop g e fuel pq csf cf = some (some pth) →
      ∀ Q : List Pos, Q.Chain' (fun a b => b ∈ terrainNeighbors g a) →
        Q.head? = some s → Q.getLast? = some e →
        wsum g (pth.drop 1) ≤ wsum g (Q.drop 1) := by
  intro fuel
  induction fuel with
  | zero =>
      intro pq csf cf pth _ hrun
      exact absurd hrun (by simp [dijkstraLoop])
  | succ fuel ih =>
      intro pq csf cf pth inv hrun Q hQc hQh hQl
      simp only [dijkstraLoop] at hrun
      split at hrun
      · -- the queue ran empty: every reachable cell is settled
        rename_i hpop
        have hpq_nil : pq = [] := popMin_none hpop
        subst hpq_nil
        obtain ⟨ce, hce, hbe⟩ := dij_post_cost inv hrun
        match Q, hQh with
        | q0 :: qrest, hQh =>
            simp only [List.head?_cons, Option.some.injEq] at hQh
            subst hQh
            obtain ⟨cs, hcs, hcs0⟩ := inv.start_csf
            rcases dij_walkdown inv.proc_relax qrest q0 (Cost.fin 0) e hQc hQl
                ⟨cs, hcs, hcs0⟩ with h | h
            · obtain ⟨cz, hcz, hzb⟩ := h
              rw [hce] at hcz
              injection hcz with hcz
              rw [Cost.czero_add] at hzb
              rw [← hcz] at hzb
              exact Cost.cle_trans hbe hzb
            · obtain ⟨x, cx, hcx, hmemx, _⟩ := h
              exact absurd hmemx (List.not_mem_nil _)
      · rename_i c w rest hpop
        by_cases hwe : w = e
        · -- the end cell popped: its entry was the queue minimum
          rw [if_pos hwe] at hrun
          subst hwe
          obtain ⟨ce, hce, hbe⟩ := dij_post_cost inv hrun
          match Q, hQh with
          | q0 :: qrest, hQh =>
              simp only [List.head?_cons, Option.some.injEq] at hQh
              subst hQh
              obtain ⟨cs, hcs, hcs0⟩ := inv.start_csf
              obtain ⟨ce', hce', hlece⟩ := inv.ub (c, w) (popMin_mem hpop)
              rw [hce] at hce'
              injection hce' with hce'
              have hlec : ce ≤ c := by
                rw [hce']
                exact hlece
              rcases dij_walkdown inv.proc_relax qrest q0 (Cost.fin 0) w hQc hQl
                  ⟨cs, hcs, hcs0⟩ with h | h
              · obtain ⟨cz, hcz, hzb⟩ := h
                rw [hce] at hcz
                injection hcz with hcz
                rw [Cost.czero_add] at hzb
                rw [← hcz] at hzb
                exact Cost.cle_trans hbe hzb
              · obtain ⟨x, cx, hcx, hmemx, hxb⟩ := h
                have hfalse := popMin_not_lt pentryLt_irrefl pentryLt_trans
                  pentryLt_weak hpop (cx, x) hmemx
                have hcxlt : ¬ cx < c := by
                  intro hlt
                  have htrue : pentryLt (cx, x) (c, w) = true := by
                    simp only [pentryLt, Bool.or_eq_true, Bool.and_eq_true,
                      decide_eq_true_eq]
                    exact Or.inl hlt
                  rw [htrue] at hfalse
                  cases hfalse
                have hclecx : c ≤ cx := by
                  by_contra hn
                  exact hcxlt (Cost.clt_iff_not_ge.mpr hn)
                rw [Cost.czero_add] at hxb
                exact Cost.cle_trans hbe
                  (Cost.cle_trans hlec (Cost.cle_trans hclecx hxb))
        · rw [if_neg hwe] at hrun
          cases hcsw : aget csf w with
          | none => rw [hcsw] at hrun; cases hrun
          | some cw =>
              simp only [hcsw] at hrun
              by_cases hst : cw < c
              · -- stale entry: drop it
                rw [if_pos hst] at hrun
                exact ih rest csf cf pth (dij_inv_stale inv hpop hcsw hst) hrun
                  Q hQc hQh hQl
              · -- fresh minimal entry: relax the neighbours
                rw [if_neg hst] at hrun
                obtain ⟨cw', hcw', hlecw⟩ := inv.ub (c, w) (popMin_mem hpop)
                rw [hcsw] at hcw'
                injection hcw' with hcw'
                have hclecw : c ≤ cw := by
                  by_contra hn
                  exact hst (Cost.clt_iff_not_ge.mpr hn)
                have hceq : cw = c := by
                  refine Cost.cle_antisymm ?_ hclecw
                  rw [hcw']
                  exact hlecw
                rw [hceq] at hcsw
                exact ih _ _ _ pth
                  (dij_inv_step inv hpop hcsw
                    ((terrainNeighbors g w).foldl (relaxStep g c w)
                      (rest, csf, cf)) rfl)
                  hrun Q hQc hQh hQl

/-- C1: whenever `TerrainPathFinder.dijkstra` returns a path, its total cost
as computed by `get_path_cost` is at most the `get_path_cost` of every
passable path of the `TerrainMaze` between the declared start and end.  (On
this terrain table every passable cell's cost is non-negative, so the
claim's non-negativity proviso holds for every grid; the theorem therefore
needs no extra hypothesis on the costs.) -/
theorem dijkstra_returns_cheapest_path (g : Grid) (fuel : ℕ) (s e : Pos)
    (pth Q : List Pos)
    (hs : getStartPosition g = some s) (he : getEndPosition g = some e)
    (hrun : dijkstra g fuel = some (some pth))
    (hQ : ValidTPath g Q) (hQh : Q.head? = some s) (hQl : Q.getLast? = some e) :
    getPathCost g pth ≤ getPathCost g Q := by
  unfold dijkstra at hrun
  rw [hs, he] at hrun
  rw [getPathCost_eq_wsum, getPathCost_eq_wsum]
  refine dijLoop_min fuel [(Cost.fin 0, s)] [(s, Cost.fin 0)] [(s, none)] pth
    ⟨?_, ?_, ?_, ?_, ?_, ?_, ?_⟩ hrun Q hQ.2 hQh hQl
  · intro x hx
    rcases List.mem_singleton.mp hx with rfl
    exact ⟨Cost.fin 0, by simp [aget], Cost.cle_refl _⟩
  · intro x hx
    rcases List.mem_singleton.mp hx with rfl
    exact Cost.cle_refl _
  · intro v cv hv
    rw [aget_singleton] at hv
    by_cases hvs : s = v
    · rw [if_pos hvs] at hv
      injection hv with hv
      rw [← hv]
      exact Cost.cle_refl _
    · rw [if_neg hvs] at hv
      cases hv
  · exact ⟨Cost.fin 0, by simp [aget], Cost.cle_refl _⟩
  · intro v o hv
    rw [aget_singleton] at hv
    by_cases hvs : s = v
    · exact ⟨Cost.fin 0, by rw [aget_singleton, if_pos hvs]⟩
    · rw [if_neg hvs] at hv
      cases hv
  · intro v u hv
    rw [aget_singleton] at hv
    by_cases hvs : s = v
    · rw [if_pos hvs] at hv
      injection hv with hv
      cases hv
    · rw [if_neg hvs] at hv
      cases hv
  · intro v cv hv hnpq u hu
    rw [aget_singleton] at hv
    by_cases hvs : s = v
    · rw [if_pos hvs] at hv
      injection hv with hv
      exact absurd (List.mem_singleton.mpr (by rw [← hv, ← hvs])) hnpq
    · rw [if_neg hvs] at hv
      cases hv

/-- A terrain grid on which the direct route (over the cheap Road) beats the
detour over Grass. -/
def dijWitnessGrid : Grid :=
  [ [PyCell.str "1", PyCell.str "R", PyCell.str "F"],
    [PyCell.str "G", PyCell.str "G", PyCell.str "G"] ]

/-- Witness for C1: on `dijWitnessGrid` Dijkstra returns the Road route,
whose cost is at most that of the Grass detour. -/
theorem dijkstra_returns_cheapest_path_witness :
    dijkstra dijWitnessGrid 20 = some (some [(0, 0), (0, 1), (0, 2)]) ∧
    getPathCost dijWitnessGrid [(0, 0), (0, 1), (0, 2)]
      ≤ getPathCost dijWitnessGrid [(0, 0), (1, 0), (1, 1), (1, 2), (0, 2)] :=
  ⟨by decide,
   dijkstra_returns_cheapest_path dijWitnessGrid 20 (0, 0) (0, 2)
     [(0, 0), (0, 1), (0, 2)] [(0, 0), (1, 0), (1, 1), (1, 2), (0, 2)]
     (by decide) (by decide) (by decide) (by decide) (by decide) (by decide)⟩

/-! ## Claim C3: the rendezvous finder selects a full-coverage coordinate of
minimal maximal arrival time.

The inner dicts of `distances` are keyed by source index, so an inner dict
holds `len(hero_positions)` entries exactly when every source reached the
coordinate; the selection loop keeps the first strict improvement of
`max(times.values())`. -/

/-- Every passable cell's terrain cost is finite (by inspection of the
terrain table). -/
theorem passable_cost_ne_inf {g : Grid} {x : Pos} (h : isPassableT g x = true) :
    getTerrainCost g x ≠ Cost.inf := by
  simp only [isPassableT, Bool.and_eq_true] at h
  rcases h with ⟨-, h⟩
  simp only [getTerrainCost]
  revert h
  simp only [getTerrainInfo]
  cases hl : terrainLookup (getTerrainType g x) with
  | none => intro h; cases h
  | some info =>
      intro h
      simp only [Option.getD_some] at h ⊢
      have hmem : ∃ s, (s, info) ∈ TERRAIN_TYPES := by
        revert hl
        cases getTerrainType g x with
        | int n => intro hl; cases hl
        | str s =>
            intro hl
            simp only [terrainLookup] at hl
            rcases aget_fold_mem TERRAIN_TYPES [] s info hl with h1 | h1
            · exact ⟨s, h1⟩
            · cases h1
      obtain ⟨s, hs⟩ := hmem
      have hall : ∀ e ∈ TERRAIN_TYPES, e.2.passable = true →
          e.2.cost ≠ Cost.inf := by decide
      exact hall (s, info) hs h

/-- An element of an `aset`-updated dict is an old element or the new
binding. -/
theorem aset_mem {κ ν : Type} [DecidableEq κ] :
    ∀ (l : List (κ × ν)) (k : κ) (v : ν) (e : κ × ν),
      e ∈ aset l k v → e ∈ l ∨ e = (k, v) := by
  intro l k v e
  induction l with
  | nil =>
      intro h
      simp only [aset, List.mem_singleton] at h
      exact Or.inr h
  | cons a t ih =>
      intro h
      simp only [aset] at h
      by_cases hk : a.1 = k
      · rw [if_pos hk] at h
        rcases List.mem_cons.mp h with h | h
        · exact Or.inr h
        · exact Or.inl (List.mem_cons_of_mem _ h)
      · rw [if_neg hk] at h
        rcases List.mem_cons.mp h with h | h
        · exact Or.inl (h ▸ List.mem_cons_self _ _)
        · rcases ih h with h | h
          · exact Or.inl (List.mem_cons_of_mem _ h)
          · exact Or.inr h

theorem aset_keys_sub {κ ν : Type} [DecidableEq κ] {l : List (κ × ν)} {k : κ}
    {v : ν} {x : κ} (h : x ∈ (aset l k v).map Prod.fst) :
    x ∈ l.map Prod.fst ∨ x = k := by
  obtain ⟨e, he, hex⟩ := List.mem_map.mp h
  rcases aset_mem l k v e he with h1 | h1
  · exact Or.inl (List.mem_map.mpr ⟨e, h1, hex⟩)
  · rw [h1] at hex
    exact Or.inr hex.symm

theorem aset_keys_nodup {κ ν : Type} [DecidableEq κ] :
    ∀ (l : List (κ × ν)) (k : κ) (v : ν),
      (l.map Prod.fst).Nodup → ((aset l k v).map Prod.fst).Nodup := by
  intro l k v
  induction l with
  | nil => intro _; simp [aset]
  | cons a t ih =>
      intro hnd
      rw [List.map_cons, List.nodup_cons] at hnd
      simp only [aset]
      by_cases hk : a.1 = k
      · rw [if_pos hk]
        rw [List.map_cons, List.nodup_cons]
        exact ⟨hk ▸ hnd.1, hnd.2⟩
      · rw [if_neg hk]
        rw [List.map_cons, List.nodup_cons]
        refine ⟨?_, ih hnd.2⟩
        intro hcon
        rcases aset_keys_sub hcon with h | h
        · exact hnd.1 h
        · exact hk h
/-- Looking up a listed binding of a nodup-keyed dict. -/
theorem aget_of_mem_nodup {κ ν : Type} [DecidableEq κ] :
    ∀ {l : List (κ × ν)}, (l.map Prod.fst).Nodup →
      ∀ {e : κ × ν}, e ∈ l → aget l e.1 = some e.2 := by
  intro l
  induction l with
  | nil => intro _ e he; cases he
  | cons a t ih =>
      intro hnd e he
      rw [List.map_cons, List.nodup_cons] at hnd
      rcases List.mem_cons.mp he with hea | he
      · subst hea
        simp [aget]
      · have hne : a.1 ≠ e.1 := by
          intro hcon
          exact hnd.1 (hcon ▸ List.mem_map.mpr ⟨e, he, rfl⟩)
        simp only [aget, if_neg hne]
        exact ih hnd.2 he

/-- A nodup inner dict keyed below `n` with `n` entries mentions every
index below `n`. -/
theorem keys_complete {times : List (ℕ × Cost)} {n : ℕ}
    (hnd : (times.map Prod.fst).Nodup) (hbd : ∀ it ∈ times, it.1 < n)
    (hlen : times.length = n) : ∀ i, i < n → ∃ t, (i, t) ∈ times := by
  intro i hi
  have hsub : (times.map Prod.fst).toFinset ⊆ Finset.range n := by
    intro x hx
    rw [List.mem_toFinset] at hx
    obtain ⟨e, he, hex⟩ := List.mem_map.mp hx
    rw [Finset.mem_range]
    exact hex ▸ hbd e he
  have hcard : (times.map Prod.fst).toFinset.card = n := by
    rw [List.toFinset_card_of_nodup hnd, List.length_map, hlen]
  have heq : (times.map Prod.fst).toFinset = Finset.range n :=
    Finset.eq_of_subset_of_card_le hsub (by rw [hcard, Finset.card_range])
  have hi2 : i ∈ (times.map Prod.fst).toFinset := by
    rw [heq, Finset.mem_range]
    exact hi
  rw [List.mem_toFinset] at hi2
  obtain ⟨e, he, hex⟩ := List.mem_map.mp hi2
  have hie : (i, e.2) = e := Prod.ext hex.symm rfl
  exact ⟨e.2, hie ▸ he⟩

/-- Conversely, a nodup inner dict keyed below `n` mentioning every index
below `n` has exactly `n` entries. -/
theorem keys_len_of_complete {times : List (ℕ × Cost)} {n : ℕ}
    (hnd : (times.map Prod.fst).Nodup) (hbd : ∀ it ∈ times, it.1 < n)
    (hcomp : ∀ i, i < n → ∃ t, (i, t) ∈ times) : times.length = n := by
  have hsub : (times.map Prod.fst).toFinset ⊆ Finset.range n := by
    intro x hx
    rw [List.mem_toFinset] at hx
    obtain ⟨e, he, hex⟩ := List.mem_map.mp hx
    rw [Finset.mem_range]
    exact hex ▸ hbd e he
  have hsub2 : Finset.range n ⊆ (times.map Prod.fst).toFinset := by
    intro i hi
    rw [Finset.mem_range] at hi
    obtain ⟨t, ht⟩ := hcomp i hi
    rw [List.mem_toFinset]
    exact List.mem_map.mpr ⟨(i, t), ht, rfl⟩
  have heq : (times.map Prod.fst).toFinset = Finset.range n :=
    Finset.Subset.antisymm hsub hsub2
  have hc := congrArg Finset.card heq
  rw [List.toFinset_card_of_nodup hnd, Finset.card_range, List.length_map] at hc
  exact hc

/-- The invariant of the `distances` map: nodup outer keys, and every inner
dict has nodup source-index keys below `n` and finite recorded times. -/
def DistOk (n : ℕ) (dist : TimesMap) : Prop :=
  (dist.map Prod.fst).Nodup ∧
  ∀ pos times, aget dist pos = some times →
    (times.map Prod.fst).Nodup ∧ (∀ it ∈ times, it.1 < n) ∧
    ∀ it ∈ times, it.2 ≠ Cost.inf

theorem recordDist_distOk {n idx : ℕ} (hidx : idx < n) {dist : TimesMap}
    {pos : Pos} {t : Cost} (hOk : DistOk n dist) (ht : t ≠ Cost.inf) :
    DistOk n (recordDist dist pos idx t) := by
  unfold recordDist
  constructor
  · exact aset_keys_nodup _ _ _ hOk.1
  · intro q times hq
    have hprops : ∀ inner0 : List (ℕ × Cost),
        ((inner0.map Prod.fst).Nodup ∧ (∀ it ∈ inner0, it.1 < n) ∧
          ∀ it ∈ inner0, it.2 ≠ Cost.inf) →
        (((aset inner0 idx t).map Prod.fst).Nodup ∧
          (∀ it ∈ aset inner0 idx t, it.1 < n) ∧
          ∀ it ∈ aset inner0 idx t, it.2 ≠ Cost.inf) := by
      intro inner0 h0
      obtain ⟨h1, h2, h3⟩ := h0
      refine ⟨aset_keys_nodup _ _ _ h1, ?_, ?_⟩
      · intro it hit
        rcases aset_mem _ _ _ it hit with h | h
        · exact h2 it h
        · rw [h]
          exact hidx
      · intro it hit
        rcases aset_mem _ _ _ it hit with h | h
        · exact h3 it h
        · rw [h]
          exact ht
    by_cases hpq : pos = q
    · subst hpq
      rw [aget_aset_self] at hq
      injection hq with hq
      subst hq
      refine hprops _ ?_
      cases hin : aget dist pos with
      | none => exact ⟨by simp, by simp, by simp⟩
      | some old => exact hOk.2 pos old hin
    · rw [aget_aset_ne _ _ hpq] at hq
      exact hOk.2 q times hq

/-- Every entry the relaxation loop pushes carries cost `t +` a neighbour's
scaled terrain cost. -/
theorem src_fold_pq {g : Grid} {speed : ℚ} {t : Cost} :
    ∀ (nbs : List Pos) (pq0 : List PQEntry) (tsf0 : CostMap) (x : PQEntry),
      x ∈ (nbs.foldl (srcRelax g speed t) (pq0, tsf0)).1 →
      x ∈ pq0 ∨ ∃ nb ∈ nbs, x.1 = t + Cost.div (getTerrainCost g nb) speed := by
  intro nbs
  induction nbs with
  | nil =>
      intro pq0 tsf0 x hx
      simp only [List.foldl_nil] at hx
      exact Or.inl hx
  | cons nb tl ih =>
      intro pq0 tsf0 x hx
      rw [List.foldl_cons] at hx
      by_cases himpP : ∀ old, aget tsf0 nb = some old →
          t + Cost.div (getTerrainCost g nb) speed < old
      · have hA : srcRelax g speed t (pq0, tsf0) nb =
            (pq0 ++ [(t + Cost.div (getTerrainCost g nb) speed, nb)],
             aset tsf0 nb (t + Cost.div (getTerrainCost g nb) speed)) := by
          cases hget : aget tsf0 nb with
          | none => simp [srcRelax, hget]
          | some old => simp [srcRelax, hget, himpP old hget]
        rw [hA] at hx
        rcases ih _ _ x hx with h | h
        · rcases List.mem_append.mp h with h | h
          · exact Or.inl h
          · rcases List.mem_singleton.mp h with rfl
            exact Or.inr ⟨nb, List.mem_cons_self _ _, rfl⟩
        · obtain ⟨nb', hnb', hx1⟩ := h
          exact Or.inr ⟨nb', List.mem_cons_of_mem _ hnb', hx1⟩
      · push_neg at himpP
        obtain ⟨old, hget, hnlt⟩ := himpP
        have hA : srcRelax g speed t (pq0, tsf0) nb = (pq0, tsf0) := by
          simp [srcRelax, hget, hnlt]
        rw [hA] at hx
        rcases ih _ _ x hx with h | h
        · exact Or.inl h
        · obtain ⟨nb', hnb', hx1⟩ := h
          exact Or.inr ⟨nb', List.mem_cons_of_mem _ hnb', hx1⟩

/-- One source's relaxation keeps the `distances` invariant: only its own
index is written, always with a finite time. -/
theorem srcLoop_distOk {g : Grid} {idx : ℕ} {speed : ℚ} {n : ℕ}
    (hidx : idx < n) :
    ∀ (fuel : ℕ) (pq : List PQEntry) (tsf : CostMap) (dist dist' : TimesMap),
      (∀ x ∈ pq, x.1 ≠ Cost.inf) → DistOk n dist →
      srcLoop g idx speed fuel pq tsf dist = some dist' →
      DistOk n dist' := by
  intro fuel
  induction fuel with
  | zero =>
      intro pq tsf dist dist' _ _ hrun
      exact absurd hrun (by simp [srcLoop])
  | succ fuel ih =>
      intro pq tsf dist dist' hpq hOk hrun
      simp only [srcLoop] at hrun
      split at hrun
      · rename_i hpop
        simp only [Option.some.injEq] at hrun
        subst hrun
        exact hOk
      · rename_i t pos rest hpop
        cases htsf : aget tsf pos with
        | none => rw [htsf] at hrun; cases hrun
        | some tp =>
            simp only [htsf] at hrun
            have hrest_pq : ∀ x ∈ rest, x.1 ≠ Cost.inf := by
              intro x hx
              refine hpq x ?_
              have hr := popMin_rest hpop
              exact removeFirst_subset (hr ▸ hx)
            by_cases hst : tp < t
            · rw [if_pos hst] at hrun
              exact ih rest tsf dist dist' hrest_pq hOk hrun
            · rw [if_neg hst] at hrun
              have ht_fin : t ≠ Cost.inf := hpq (t, pos) (popMin_mem hpop)
              have hOk1 : DistOk n (recordDist dist pos idx t) :=
                recordDist_distOk hidx hOk ht_fin
              have hst_pq : ∀ x ∈ ((terrainNeighbors g pos).foldl
                  (srcRelax g speed t) (rest, tsf)).1, x.1 ≠ Cost.inf := by
                intro x hx
                rcases src_fold_pq (terrainNeighbors g pos) rest tsf x hx with h | h
                · exact hrest_pq x h
                · obtain ⟨nb, hnb, hx1⟩ := h
                  rw [hx1]
                  have hpass : isPassableT g nb = true := by
                    simp only [terrainNeighbors, List.mem_filter] at hnb
                    exact hnb.2
                  cases hcost : getTerrainCost g nb with
                  | inf => exact absurd hcost (passable_cost_ne_inf hpass)
                  | fin q =>
                      cases htv : t with
                      | inf => exact absurd htv ht_fin
                      | fin a => simp [Cost.div]
              exact ih _ _ _ dist' hst_pq hOk1 hrun

theorem fst_lt_of_mem_enumFrom {α : Type} :
    ∀ (l : List α) (k : ℕ) (x : ℕ × α), x ∈ l.enumFrom k → x.1 < k + l.length := by
  intro l
  induction l with
  | nil => intro k x hx; cases hx
  | cons a t ih =>
      intro k x hx
      rw [List.enumFrom_cons] at hx
      rcases List.mem_cons.mp hx with hxa | hx
      · rw [hxa]
        simp only [List.length_cons]
        omega
      · have := ih (k + 1) x hx
        simp only [List.length_cons]
        omega

/-- The per-source fold of `compute_distances_with_costs` keeps the
invariant as long as every enumerated index is below `n`. -/
theorem foldlM_distOk {g : Grid} {fuel : ℕ} {n : ℕ} :
    ∀ (l : List (ℕ × (Pos × ℚ))), (∀ e ∈ l, e.1 < n) →
    ∀ (d0 d' : TimesMap), DistOk n d0 →
      l.foldlM (fun dist (e : ℕ × (Pos × ℚ)) =>
        if isValidPosition g e.2.1 then
          srcLoop g e.1 e.2.2 fuel [(Cost.fin 0, e.2.1)] [(e.2.1, Cost.fin 0)] dist
        else some dist) d0 = some d' →
      DistOk n d' := by
  intro l
  induction l with
  | nil =>
      intro _ d0 d' h0 hrun
      simp only [List.foldlM_nil, Option.pure_def, Option.some.injEq] at hrun
      subst hrun
      exact h0
  | cons e tl ih =>
      intro hbd d0 d' h0 hrun
      simp only [List.foldlM_cons] at hrun
      cases hstep : (if isValidPosition g e.2.1 then
          srcLoop g e.1 e.2.2 fuel [(Cost.fin 0, e.2.1)] [(e.2.1, Cost.fin 0)] d0
        else some d0) with
      | none => rw [hstep] at hrun; cases hrun
      | some d1 =>
          rw [hstep] at hrun
          have h1 : DistOk n d1 := by
            by_cases hval : isValidPosition g e.2.1 = true
            · rw [if_pos hval] at hstep
              refine srcLoop_distOk (hbd e (List.mem_cons_self _ _)) fuel _ _ _ _
                ?_ h0 hstep
              intro x hx
              rcases List.mem_singleton.mp hx with rfl
              simp
            · rw [if_neg hval] at hstep
              injection hstep with hstep
              exact hstep ▸ h0
          exact ih (fun x hx => hbd x (List.mem_cons_of_mem _ hx)) d1 d' h1 hrun

/-- `compute_distances_with_costs` produces an invariant-satisfying
`distances` map. -/
theorem compute_distOk {g : Grid} {sources : List Pos} {speeds : List ℚ}
    {fuel : ℕ} {dist : TimesMap}
    (hlen : sources.length = speeds.length)
    (h : computeDistancesWithCosts g sources (some speeds) fuel =
      some (Except.ok dist)) :
    DistOk sources.length dist := by
  unfold computeDistancesWithCosts at h
  by_cases hemp : sources.isEmpty = true
  · rw [if_pos hemp] at h
    simp only [Option.some.injEq, Except.ok.injEq] at h
    subst h
    exact ⟨List.nodup_nil, fun pos times hq => absurd hq (by simp [aget])⟩
  · rw [if_neg hemp] at h
    simp only [Option.getD_some] at h
    rw [if_neg (fun hne => hne hlen)] at h
    cases hfold : (sources.zip speeds).enum.foldlM
        (fun dist (e : ℕ × (Pos × ℚ)) =>
          if isValidPosition g e.2.1 then
            srcLoop g e.1 e.2.2 fuel [(Cost.fin 0, e.2.1)] [(e.2.1, Cost.fin 0)]
              dist
          else some dist) [] with
    | none => rw [hfold] at h; cases h
    | some d0 =>
        rw [hfold] at h
        simp only [Option.map_some', Option.some.injEq, Except.ok.injEq] at h
        subst h
        refine foldlM_distOk _ ?_ [] d0
          ⟨List.nodup_nil, fun pos times hq => absurd hq (by simp [aget])⟩ hfold
        intro e he
        have hb := fst_lt_of_mem_enumFrom (sources.zip speeds) 0 e he
        rw [List.length_zip, ← hlen, Nat.min_self] at hb
        omega

theorem maxTimes_mem (t0 : Cost) (rest : List Cost) :
    maxTimes t0 rest ∈ t0 :: rest := by
  unfold maxTimes
  induction rest generalizing t0 with
  | nil => simp
  | cons b tl ih =>
      simp only [List.foldl_cons]
      by_cases hb : t0 < b
      · simp only [if_pos hb]
        rcases List.mem_cons.mp (ih b) with h | h
        · rw [h]
          exact List.mem_cons_of_mem _ (List.mem_cons_self _ _)
        · exact List.mem_cons_of_mem _ (List.mem_cons_of_mem _ h)
      · simp only [if_neg hb]
        rcases List.mem_cons.mp (ih t0) with h | h
        · rw [h]
          exact List.mem_cons_self _ _
        · exact List.mem_cons_of_mem _ (List.mem_cons_of_mem _ h)

theorem innerMax_ne_inf {times : List (ℕ × Cost)} (hne : times ≠ [])
    (hfin : ∀ it ∈ times, it.2 ≠ Cost.inf) : innerMax times ≠ Cost.inf := by
  cases times with
  | nil => exact absurd rfl hne
  | cons t0 rest =>
      have hmem : innerMax (t0 :: rest) ∈ t0.2 :: rest.map (·.2) :=
        maxTimes_mem _ _
      rcases List.mem_cons.mp hmem with h | h
      · rw [h]
        exact hfin t0 (List.mem_cons_self _ _)
      · obtain ⟨it, hit, hval⟩ := List.mem_map.mp h
        rw [← hval]
        exact hfin it (List.mem_cons_of_mem _ hit)

theorem selStep_le (n : ℕ) (acc : Cost × Option Pos)
    (e : Pos × List (ℕ × Cost)) : (selStep n acc e).1 ≤ acc.1 := by
  obtain ⟨pos, times⟩ := e
  by_cases hl : times.length = n
  · cases times with
    | nil =>
        have : selStep n acc (pos, []) = acc := by
          unfold selStep
          split
          · rfl
          · rfl
        rw [this]
        exact Cost.cle_refl _
    | cons t0 rest =>
        by_cases hlt : maxTimes t0.2 (rest.map (·.2)) < acc.1
        · have : selStep n acc (pos, t0 :: rest) =
              (maxTimes t0.2 (rest.map (·.2)), some pos) := by
            simp [selStep, hl, hlt]
          rw [this]
          exact Cost.cle_of_lt hlt
        · have : selStep n acc (pos, t0 :: rest) = acc := by
            simp [selStep, hl, hlt]
          rw [this]
          exact Cost.cle_refl _
  · have : selStep n acc (pos, times) = acc := by
      simp [selStep, hl]
    rw [this]
    exact Cost.cle_refl _

theorem selStep_qual_le (n : ℕ) (acc : Cost × Option Pos)
    (e : Pos × List (ℕ × Cost)) (hq : e.2.length = n) (hne : e.2 ≠ []) :
    (selStep n acc e).1 ≤ innerMax e.2 := by
  obtain ⟨pos, times⟩ := e
  cases times with
  | nil => exact absurd rfl hne
  | cons t0 rest =>
      by_cases hlt : maxTimes t0.2 (rest.map (·.2)) < acc.1
      · have : selStep n acc (pos, t0 :: rest) =
            (maxTimes t0.2 (rest.map (·.2)), some pos) := by
          simp [selStep, hq, hlt]
        rw [this]
        exact Cost.cle_refl _
      · have : selStep n acc (pos, t0 :: rest) = acc := by
          simp [selStep, hq, hlt]
        rw [this]
        by_contra hn2
        exact hlt (Cost.clt_iff_not_ge.mpr hn2)

theorem selStep_eq_or (n : ℕ) (acc : Cost × Option Pos)
    (e : Pos × List (ℕ × Cost)) :
    selStep n acc e = acc ∨
    (e.2.length = n ∧ e.2 ≠ [] ∧ selStep n acc e = (innerMax e.2, some e.1)) := by
  obtain ⟨pos, times⟩ := e
  by_cases hl : times.length = n
  · cases times with
    | nil =>
        left
        unfold selStep
        split
        · rfl
        · rfl
    | cons t0 rest =>
        by_cases hlt : maxTimes t0.2 (rest.map (·.2)) < acc.1
        · right
          refine ⟨hl, by simp, ?_⟩
          simp [selStep, hl, hlt, innerMax]
        · left
          simp [selStep, hl, hlt]
  · left
    simp [selStep, hl]

/-- Soundness and minimality of the selection fold. -/
theorem selGath_fold (n : ℕ) :
    ∀ (l : TimesMap) (acc : Cost × Option Pos),
      (l.foldl (selStep n) acc = acc ∨
        ∃ e ∈ l, e.2.length = n ∧ e.2 ≠ [] ∧
          l.foldl (selStep n) acc = (innerMax e.2, some e.1)) ∧
      (∀ e ∈ l, e.2.length = n → e.2 ≠ [] →
        (l.foldl (selStep n) acc).1 ≤ innerMax e.2) ∧
      (l.foldl (selStep n) acc).1 ≤ acc.1 := by
  intro l
  induction l with
  | nil =>
      intro acc
      exact ⟨Or.inl rfl, fun e he => absurd he (List.not_mem_nil e),
        Cost.cle_refl _⟩
  | cons e0 tl ih =>
      intro acc
      rw [List.foldl_cons]
      obtain ⟨IH1, IH2, IH3⟩ := ih (selStep n acc e0)
      refine ⟨?_, ?_, ?_⟩
      · rcases IH1 with h | h
        · rcases selStep_eq_or n acc e0 with h2 | ⟨hq, hne, h2⟩
          · exact Or.inl (h.trans h2)
          · exact Or.inr ⟨e0, List.mem_cons_self _ _, hq, hne, h.trans h2⟩
        · obtain ⟨e, he, hq, hne, heq⟩ := h
          exact Or.inr ⟨e, List.mem_cons_of_mem _ he, hq, hne, heq⟩
      · intro e he hq hne
        rcases List.mem_cons.mp he with hea | he
        · subst hea
          exact Cost.cle_trans IH3 (selStep_qual_le n acc e hq hne)
        · exact IH2 e he hq hne
      · exact Cost.cle_trans IH3 (selStep_le n acc e0)

theorem selectGathering_spec (n : ℕ) (l : TimesMap) :
    (selectGathering l n = (Cost.inf, none) ∨
      ∃ e ∈ l, e.2.length = n ∧ e.2 ≠ [] ∧
        selectGathering l n = (innerMax e.2, some e.1)) ∧
    ∀ e ∈ l, e.2.length = n → e.2 ≠ [] →
      (selectGathering l n).1 ≤ innerMax e.2 := by
  obtain ⟨h1, h2, _⟩ := selGath_fold n l (Cost.inf, none)
  exact ⟨h1, h2⟩

/-- C3: with at least two sources and matching speeds,
`find_optimal_gathering_point` selects among exactly the coordinates whose
`distances` entry records an arrival time from every source: a returned
point is fully covered and minimises the maximal arrival time over all
fully covered coordinates, and if no coordinate is fully covered the result
is `None`. -/
theorem rendezvous_minimal_max (g : Grid) (sources : List Pos)
    (speeds : List ℚ) (fuel : ℕ) (res : Option Pos) (dist : TimesMap)
    (hn : 2 ≤ sources.length)
    (hsp : sources.length = speeds.length)
    (hdist : computeDistancesWithCosts g sources (some speeds) fuel =
      some (Except.ok dist))
    (hrun : findOptimalGatheringPoint g sources (some speeds) fuel =
      some (Except.ok res)) :
    (∀ p, res = some p →
      ∃ times, aget dist p = some times ∧
        (∀ i, i < sources.length → ∃ t, (i, t) ∈ times) ∧
        ∀ q tq, aget dist q = some tq →
          (∀ i, i < sources.length → ∃ t, (i, t) ∈ tq) →
          innerMax times ≤ innerMax tq) ∧
    (res = none → ∀ q tq, aget dist q = some tq →
      ¬ ∀ i, i < sources.length → ∃ t, (i, t) ∈ tq) := by
  have hOk := compute_distOk hsp hdist
  have hne : sources.isEmpty = false := by
    cases sources with
    | nil => exact absurd hn (by simp)
    | cons a t => rfl
  unfold findOptimalGatheringPoint at hrun
  rw [if_neg (by simp [hne])] at hrun
  simp only [hdist] at hrun
  by_cases hde : dist.isEmpty = true
  · rw [if_pos hde] at hrun
    simp only [Option.some.injEq, Except.ok.injEq] at hrun
    subst hrun
    have hdist_nil : dist = [] := by
      cases dist with
      | nil => rfl
      | cons a t => simp at hde
    constructor
    · intro p hp
      cases hp
    · intro _ q tq hq
      rw [hdist_nil] at hq
      exact absurd hq (by simp [aget])
  · rw [if_neg hde] at hrun
    simp only [Option.some.injEq, Except.ok.injEq] at hrun
    obtain ⟨S1, S2⟩ := selectGathering_spec sources.length dist
    constructor
    · intro p hp
      rw [← hrun] at hp
      rcases S1 with h | ⟨e, he, hq, hne2, heq⟩
      · rw [h] at hp
        cases hp
      · rw [heq] at hp
        simp only [Option.some.injEq] at hp
        subst hp
        have hget_e : aget dist e.1 = some e.2 := aget_of_mem_nodup hOk.1 he
        obtain ⟨hnd_e, hbd_e, hfin_e⟩ := hOk.2 e.1 e.2 hget_e
        refine ⟨e.2, hget_e, keys_complete hnd_e hbd_e hq, ?_⟩
        intro q tq hq2 hcomp
        obtain ⟨hnd_q, hbd_q, hfin_q⟩ := hOk.2 q tq hq2
        have hlen_q : tq.length = sources.length :=
          keys_len_of_complete hnd_q hbd_q hcomp
        have hne_q : tq ≠ [] := by
          intro hcon
          rw [hcon] at hlen_q
          simp only [List.length_nil] at hlen_q
          omega
        have hmem_q : (q, tq) ∈ dist := aget_mem_keys hq2
        have hle := S2 (q, tq) hmem_q hlen_q hne_q
        rw [heq] at hle
        exact hle
    · intro hres q tq hq2 hcomp
      rw [hres] at hrun
      obtain ⟨hnd_q, hbd_q, hfin_q⟩ := hOk.2 q tq hq2
      have hlen_q : tq.length = sources.length :=
        keys_len_of_complete hnd_q hbd_q hcomp
      have hne_q : tq ≠ [] := by
        intro hcon
        rw [hcon] at hlen_q
        simp only [List.length_nil] at hlen_q
        omega
      have hmem_q : (q, tq) ∈ dist := aget_mem_keys hq2
      have hle := S2 (q, tq) hmem_q hlen_q hne_q
      have hfininner : innerMax tq ≠ Cost.inf := innerMax_ne_inf hne_q hfin_q
      rcases S1 with h | ⟨e, he, hq3, hne3, heq⟩
      · rw [h] at hle
        cases hmaxv : innerMax tq with
        | inf => exact hfininner hmaxv
        | fin qq =>
            rw [hmaxv] at hle
            exact hle
      · rw [heq] at hrun
        cases hrun

/-- The single-row all-Grass grid of the C3 witness. -/
def rdzGrid : Grid :=
  [ [PyCell.str "G", PyCell.str "G", PyCell.str "G", PyCell.str "G",
     PyCell.str "G"] ]

/-- The `distances` map the embedding computes on `rdzGrid` for sources at
the two ends with unit speed. -/
def rdzDist : TimesMap :=
  [ ((0, 0), [(0, Cost.fin 0), (1, Cost.fin 4)]),
    ((0, 1), [(0, Cost.fin 1), (1, Cost.fin 3)]),
    ((0, 2), [(0, Cost.fin 2), (1, Cost.fin 2)]),
    ((0, 3), [(0, Cost.fin 3), (1, Cost.fin 1)]),
    ((0, 4), [(0, Cost.fin 4), (1, Cost.fin 0)]) ]

instance : DecidableEq ((ℤ × ℤ) × List (ℕ × Cost)) := inferInstance

/-- Witness for C3: the two end cells of a five-cell Grass row meet best in
the middle, where both arrive after time 2. -/
theorem rendezvous_minimal_max_witness :
    computeDistancesWithCosts rdzGrid [(0, 0), (0, 4)] (some [1, 1]) 30 =
      some (Except.ok rdzDist) ∧
    findOptimalGatheringPoint rdzGrid [(0, 0), (0, 4)] (some [1, 1]) 30 =
      some (Except.ok (some (0, 2))) ∧
    ((∀ p, (some ((0, 2) : Pos) : Option Pos) = some p →
      ∃ times, aget rdzDist p = some times ∧
        (∀ i, i < ([(0, 0), (0, 4)] : List Pos).length → ∃ t, (i, t) ∈ times) ∧
        ∀ q tq, aget rdzDist q = some tq →
          (∀ i, i < ([(0, 0), (0, 4)] : List Pos).length → ∃ t, (i, t) ∈ tq) →
          innerMax times ≤ innerMax tq) ∧
    ((some ((0, 2) : Pos) : Option Pos) = none →
      ∀ q tq, aget rdzDist q = some tq →
        ¬ ∀ i, i < ([(0, 0), (0, 4)] : List Pos).length → ∃ t, (i, t) ∈ tq)) :=
  ⟨by decide, by decide,
   rendezvous_minimal_max rdzGrid [(0, 0), (0, 4)] [1, 1] 30 (some (0, 2))
     rdzDist (by decide) (by decide) (by decide) (by decide)⟩
